import Mathlib

/-!
Verification of the on-disk persistent trie engine of `trie_index/storage.py`.

The development has two layers, mirroring the structure of the source:

* a byte-level codec: `decode_node` / `encode_node` translate `_read_node`'s
  and `_write_node`'s manipulation of the raw 1024-byte record, including the
  exact conditions under which the Python code raises (`IndexError`,
  `struct.error`, `ValueError`) — modelled as `Except.error ()` — and the
  exact clamping behaviour of Python slices;
* a record-level model: the trie state is the list of decoded node records
  (node id = position in the list, exactly as on disk where the id is the
  offset divided by `NODE_SIZE`); `find_or_create_child`, `insert`, `lookup`
  and `prefixSearch` are direct translations of the corresponding Python
  functions, with `_read_node` becoming list indexing and `_write_node`
  becoming list update/append.  The theorem `read_write_node_bytes` shows the
  byte codec round-trips every record the engine actually writes, tying the
  two layers together.

Python exceptions are modelled as `none` / `Except.error ()`; operations that
can raise return `Option` / `Except` values.
-/

namespace TrieIndex

/-- Record size in bytes (`NODE_SIZE = 1024`). -/
def NODE_SIZE : Nat := 1024

/-- Value-list capacity (`MAX_VALUES = 8`). -/
def MAX_VALUES : Nat := 8

/-- Child-table capacity constant (`MAX_CHILDREN = 64`).  Note: the constant
is declared in the source but never consulted by any operation. -/
def MAX_CHILDREN : Nat := 64

/-- A decoded node record, as produced by `_read_node`: the edge byte from the
parent (`char`, a single byte), the terminal flag, the ordered value list and
the ordered child table of (edge byte, child id) pairs. -/
structure Node where
  char : Nat
  is_terminal : Bool
  values : List Nat
  children : List (Nat × Nat)
deriving DecidableEq, Repr

/-- The record-level trie state: the sequence of node records stored in the
backing file; the node with identifier `i` is entry `i`. -/
abbrev Trie := List Node

/-- Record read: `_read_node` returns `None` when the offset is at or past the
end of file, and the decoded record otherwise (decoding of a well-formed
record always succeeds, see `read_write_node_bytes`). -/
def Trie.read (t : Trie) (id : Nat) : Option Node := t[id]?

/-- Record write: `_write_node` overwrites the record at `id`; writing at
`id = t.length` (the slot returned by `_get_next_node_id`) extends the file.
The engine never writes beyond that, but Python would zero-fill a gap, hence
the padding with zero records. -/
def Trie.write (t : Trie) (id : Nat) (n : Node) : Trie :=
  if id < t.length then List.set t id n
  else t ++ List.replicate (id - t.length) ⟨0, false, [], []⟩ ++ [n]

/-- The root record written by the constructor when the file is empty:
`_write_node(0, b'\0', False, [], [])`. -/
def initTrie : Trie := [⟨0, false, [], []⟩]

/-- Linear scan of a child table for the first entry with the given byte,
as in the `for c, node_idx in node["children"]` loops. -/
def findChild : List (Nat × Nat) → Nat → Option Nat
  | [], _ => none
  | p :: rest, c => if p.1 = c then some p.2 else findChild rest c

/-- `_find_or_create_child`: return the existing child for `target_char`, or
allocate a fresh node (id = `_get_next_node_id()` = current length), append
the new edge to the parent (no capacity check appears in the source), write
parent then child, and return the fresh id.  `none` models the `TypeError`
the code would raise if `_read_node` returned `None`. -/
def find_or_create_child (t : Trie) (pid : Nat) (c : Nat) : Option (Trie × Nat) :=
  match t.read pid with
  | none => none
  | some node =>
    match findChild node.children c with
    | some cid => some (t, cid)
    | none =>
      let nid := t.length
      let t1 := t.write pid ⟨node.char, node.is_terminal, node.values, node.children ++ [(c, nid)]⟩
      let t2 := t1.write nid ⟨c, false, [], []⟩
      some (t2, nid)

/-- The traversal loop of `insert`: walk the key bytes, creating children as
needed, returning the final state and node id. -/
def insertLoop (t : Trie) (nid : Nat) : List Nat → Option (Trie × Nat)
  | [] => some (t, nid)
  | c :: rest =>
    match find_or_create_child t nid c with
    | none => none
    | some (t1, nid1) => insertLoop t1 nid1 rest

/-- The value update performed at the terminal node of `insert`: append the
value if it is new and the list has room (`MAX_VALUES`), else leave the list
unchanged. -/
def updateVals (vs : List Nat) (v : Nat) : List Nat :=
  if v ∈ vs then vs else if vs.length < MAX_VALUES then vs ++ [v] else vs

/-- `insert` on the already-encoded key bytes: traverse/create the path, then
re-read the final node, update its value list, set the terminal flag and
write it back. -/
def insertB (t : Trie) (kb : List Nat) (v : Nat) : Option Trie :=
  match insertLoop t 0 kb with
  | none => none
  | some (t1, nid) =>
    match t1.read nid with
    | none => none
    | some node =>
      some (t1.write nid ⟨node.char, true, updateVals node.values v, node.children⟩)

/-- The descent loop shared by `lookup` and `prefix_search`: `some (some n)`
when the whole key is matched ending at node `n`, `some none` when some byte
has no matching edge (the `else: return []` branch), `none` when a read
fails (the code would crash). -/
def descend (t : Trie) : Nat → List Nat → Option (Option Nat)
  | nid, [] => some (some nid)
  | nid, c :: rest =>
    match t.read nid with
    | none => none
    | some node =>
      match findChild node.children c with
      | none => some none
      | some cid => descend t cid rest

/-- `lookup` on the already-encoded key bytes: descend; on a missing edge
return `[]`; at the end return the values if the node is terminal, else `[]`. -/
def lookupB (t : Trie) (kb : List Nat) : Option (List Nat) :=
  match descend t 0 kb with
  | none => none
  | some none => some []
  | some (some nid) =>
    match t.read nid with
    | none => none
    | some node => some (if node.is_terminal then node.values else [])

/-- UTF-8 encoding of one code point, as performed by `str.encode("utf-8")`. -/
def utf8Char (c : Nat) : List Nat :=
  if c < 128 then [c]
  else if c < 2048 then [192 + c / 64, 128 + c % 64]
  else if c < 65536 then [224 + c / 4096, 128 + c / 64 % 64, 128 + c % 64]
  else [240 + c / 262144, 128 + c / 4096 % 64, 128 + c / 64 % 64, 128 + c % 64]

/-- UTF-8 encoding of a string, viewed as its list of code points. -/
def utf8Encode (w : List Nat) : List Nat := (w.map utf8Char).flatten

/-- Public `insert(word, value)`: the key is a string, encoded to bytes first. -/
def insertS (t : Trie) (w : List Nat) (v : Nat) : Option Trie := insertB t (utf8Encode w) v

/-- Public `lookup(word)`. -/
def lookupS (t : Trie) (w : List Nat) : Option (List Nat) := lookupB t (utf8Encode w)

/-- Sequence the optional result lists of the children of one node, in table
order, concatenating them; `none` as soon as one recursive call fails. -/
def seqResults : List (Option (List (List Nat × List Nat))) → Option (List (List Nat × List Nat))
  | [] => some []
  | o :: rest =>
    match o with
    | none => none
    | some a =>
      match seqResults rest with
      | none => none
      | some b => some (a ++ b)

/-- The depth-first collection loop of `prefix_search`: at each node, emit
`(path, values)` if the node is terminal, then recurse into every child in
table order, extending the path by `chr(c)` — i.e. by the raw byte read back
as one code point.  The Python recursion is unbounded; the model uses a fuel
argument, defined via `Nat.rec` so that it evaluates definitionally, and the
caller passes fuel that provably suffices on every reachable state. -/
def dfs (t : Trie) (fuel : Nat) : Nat → List Nat → Option (List (List Nat × List Nat)) :=
  Nat.rec (motive := fun _ => Nat → List Nat → Option (List (List Nat × List Nat)))
    (fun _ _ => none)
    (fun _ ih nid path =>
      match t.read nid with
      | none => none
      | some node =>
        match seqResults (node.children.map (fun pr => ih pr.2 (path ++ [pr.1]))) with
        | none => none
        | some rs => some ((if node.is_terminal then [(path, node.values)] else []) ++ rs))
    fuel

/-- `prefix_search(trie, prefix)`: encode the prefix, descend byte-by-byte
(returning `[]` on a missing edge), then collect terminals depth-first.  The
initial path is `list(prefix)` — the code points of the prefix string —
while each traversed byte is appended as `chr(byte)`. -/
def prefixSearch (t : Trie) (p : List Nat) : Option (List (List Nat × List Nat)) :=
  match descend t 0 (utf8Encode p) with
  | none => none
  | some none => some []
  | some (some nid) => dfs t (t.length + 1) nid p

/-- Fold a list of (encoded key, value) pairs through `insertB`. -/
def insertManyB (t : Trie) : List (List Nat × Nat) → Option Trie
  | [] => some t
  | q :: rest =>
    match insertB t q.1 q.2 with
    | none => none
    | some t1 => insertManyB t1 rest

/-- Fold a list of (string key, value) pairs through `insertS`. -/
def insertManyS (t : Trie) : List (List Nat × Nat) → Option Trie
  | [] => some t
  | q :: rest =>
    match insertS t q.1 q.2 with
    | none => none
    | some t1 => insertManyS t1 rest

/-! ## Byte-level record codec

The backing file is a flat byte sequence.  `decode_node` is the decoding part
of `_read_node` applied to the (already clamped) slice `file[id*R : id*R+R]`;
`encode_node` is the buffer-building part of `_write_node`.  An
`Except.error ()` models the exceptions Python raises (`IndexError` on an
out-of-range index, `struct.error` on a short slice or an out-of-range packed
value, `ValueError` on a byte assignment above 255). -/

/-- Little-endian `<I` read of the four bytes at offset `o` (Python pads a
missing byte only after the length guard has already failed, so reading with
a default of 0 agrees with `struct.unpack` on every non-error path). -/
def leUnpack4 (data : List Nat) (o : Nat) : Nat :=
  data.getD o 0 + 256 * (data.getD (o + 1) 0 + 256 * (data.getD (o + 2) 0 + 256 * data.getD (o + 3) 0))

/-- Little-endian `<H` read of the two bytes at offset `o`. -/
def leUnpack2 (data : List Nat) (o : Nat) : Nat :=
  data.getD o 0 + 256 * data.getD (o + 1) 0

/-- Little-endian `<I` byte encoding of a 32-bit value. -/
def u32le (v : Nat) : List Nat :=
  [v % 256, v / 256 % 256, v / 65536 % 256, v / 16777216 % 256]

/-- Little-endian `<H` byte encoding of a 16-bit value. -/
def u16le (v : Nat) : List Nat := [v % 256, v / 256 % 256]

/-- Decoding of one record slice, following `_read_node` line by line:
`if not data: return None`; `char = data[0:1]`; `is_terminal = bool(data[1])`;
`num_values = data[2]`; unpack `num_values` 32-bit values at offset 3;
`num_children = data[35]`; unpack `(byte, u16 id)` triples from offset 36.
The error guards are exactly the conditions under which the Python
expressions raise on a truncated slice; NO bound is checked against
`MAX_VALUES` or `MAX_CHILDREN`. -/
def decode_node (data : List Nat) : Except Unit (Option Node) :=
  if data.length = 0 then .ok none
  else if data.length < 3 then .error ()
  else if data.length < 3 + 4 * data.getD 2 0 then .error ()
  else if data.length < 36 then .error ()
  else if 0 < data.getD 35 0 ∧ data.length < 36 + 3 * data.getD 35 0 then .error ()
  else
    .ok (some
      { char := data.getD 0 0
        is_terminal := decide (data.getD 1 0 ≠ 0)
        values := (List.range (data.getD 2 0)).map (fun i => leUnpack4 data (3 + 4 * i))
        children := (List.range (data.getD 35 0)).map (fun i =>
          (data.getD (36 + 3 * i) 0, leUnpack2 data (37 + 3 * i))) })

/-- `_read_node(id)` at the byte level: take the (clamped) 1024-byte slice at
offset `id * NODE_SIZE` and decode it. -/
def read_node_bytes (file : List Nat) (id : Nat) : Except Unit (Option Node) :=
  decode_node ((file.drop (id * NODE_SIZE)).take NODE_SIZE)

/-- In-place overwrite of `bs` into `buf` starting at offset `off`
(`struct.pack_into` / slice assignment semantics; writes past the end of the
buffer cannot occur on any non-error path). -/
def setBytes : List Nat → Nat → List Nat → List Nat
  | [], _, _ => []
  | b :: rest, 0, bs =>
    match bs with
    | [] => b :: rest
    | x :: xs => x :: setBytes rest 0 xs
  | b :: rest, off + 1, bs => b :: setBytes rest off bs

/-- The child-table packing loop of `_write_node`: triple `i` goes to offset
`36 + 3 * i`. -/
def packChildren : List Nat → Nat → List (Nat × Nat) → List Nat
  | buf, _, [] => buf
  | buf, i, pr :: rest => packChildren (setBytes buf (36 + 3 * i) (pr.1 :: u16le pr.2)) (i + 1) rest

/-- The buffer-building part of `_write_node`: a zeroed `NODE_SIZE` buffer,
then `buf[0:1] = char`, `buf[1]`, `buf[2] = len(values)`, packed values at
offset 3, `buf[35] = len(children)` and the child triples.  The error cases
are exactly where Python raises: a count above 255 assigned to a single
byte (`ValueError`), a value at or above `2^32` packed with `<I`, or a child
byte above 255 / child id at or above `2^16` (`struct.error`) — the latter is
the `NodeIdOverflow` surface of claim C7. -/
def encode_node (ch : Nat) (tm : Bool) (vals : List Nat) (children : List (Nat × Nat)) :
    Except Unit (List Nat) :=
  if 255 < vals.length then .error ()
  else if ∃ v ∈ vals, 2 ^ 32 ≤ v then .error ()
  else if 255 < children.length then .error ()
  else if ∃ pr ∈ children, 255 < pr.1 ∨ 2 ^ 16 ≤ pr.2 then .error ()
  else
    let b1 := setBytes (List.replicate NODE_SIZE 0) 0 [ch]
    let b2 := setBytes b1 1 [if tm then 1 else 0]
    let b3 := setBytes b2 2 [vals.length]
    let b4 := setBytes b3 3 (vals.map u32le).flatten
    let b5 := setBytes b4 35 [children.length]
    .ok (packChildren b5 0 children)

/-- Write `buf` into `file` at byte position `pos`, zero-filling any gap
(seek past end-of-file followed by `write`). -/
def writeAt (file : List Nat) (pos : Nat) (buf : List Nat) : List Nat :=
  file.take pos ++ List.replicate (pos - file.length) 0 ++ buf ++ file.drop (pos + buf.length)

/-- `_write_node` at the byte level: encode the record (all exceptions are
raised while building the buffer, before any byte reaches the file) and
overwrite the slot at `id * NODE_SIZE`. -/
def write_node_bytes (file : List Nat) (id : Nat) (ch : Nat) (tm : Bool)
    (vals : List Nat) (children : List (Nat × Nat)) : Except Unit (List Nat) :=
  match encode_node ch tm vals children with
  | .error e => .error e
  | .ok buf => .ok (writeAt file (id * NODE_SIZE) buf)

/-! ## State-threaded read-only operations

`lookup` and `prefix_search` only ever call `_read_node`, i.e. `seek` and
`read` on the backing file.  To state their frame property (claim C9) the
byte-level file handle is threaded explicitly through every read; `readSt`
returns the file alongside the read result, exactly as `file.read` leaves the
file contents and length untouched. -/

/-- A byte-level `_read_node` call returning the (unchanged) file contents
together with its result. -/
def readSt (file : List Nat) (id : Nat) : List Nat × Except Unit (Option Node) :=
  (file, read_node_bytes file id)

/-- The descent loop of `lookup`, threading the file through each read. -/
def descendSt (kb : List Nat) : List Nat → Nat → List Nat × Except Unit (Option Nat) :=
  List.rec (motive := fun _ => List Nat → Nat → List Nat × Except Unit (Option Nat))
    (fun f nid => (f, .ok (some nid)))
    (fun c _ ih f nid =>
      match readSt f nid with
      | (f1, .error e) => (f1, .error e)
      | (f1, .ok none) => (f1, .error ())
      | (f1, .ok (some node)) =>
        match findChild node.children c with
        | none => (f1, .ok none)
        | some cid => ih f1 cid)
    kb

/-- `lookup` with the file handle threaded through every `_read_node` call. -/
def lookupSt (file : List Nat) (kb : List Nat) : List Nat × Except Unit (List Nat) :=
  match descendSt kb file 0 with
  | (f1, .error e) => (f1, .error e)
  | (f1, .ok none) => (f1, .ok [])
  | (f1, .ok (some nid)) =>
    match readSt f1 nid with
    | (f2, .error e) => (f2, .error e)
    | (f2, .ok none) => (f2, .error ())
    | (f2, .ok (some node)) => (f2, .ok (if node.is_terminal then node.values else []))

/-- The depth-first loop of `prefix_search` with the file threaded through
every read (fuel as in `dfs`). -/
def dfsSt (fuel : Nat) : List Nat → Nat → List Nat →
    List Nat × Except Unit (List (List Nat × List Nat)) :=
  Nat.rec (motive := fun _ => List Nat → Nat → List Nat →
      List Nat × Except Unit (List (List Nat × List Nat)))
    (fun f _ _ => (f, .error ()))
    (fun _ ih f nid path =>
      match readSt f nid with
      | (f1, .error e) => (f1, .error e)
      | (f1, .ok none) => (f1, .error ())
      | (f1, .ok (some node)) =>
        node.children.foldl
          (fun acc pr =>
            match acc with
            | (fa, .error e) => (fa, .error e)
            | (fa, .ok rs) =>
              match ih fa pr.2 (path ++ [pr.1]) with
              | (fb, .error e) => (fb, .error e)
              | (fb, .ok rs1) => (fb, .ok (rs ++ rs1)))
          (f1, .ok (if node.is_terminal then [(path, node.values)] else [])))
    fuel

/-- `prefix_search` with the file handle threaded through every read. -/
def prefixSearchSt (file : List Nat) (p : List Nat) :
    List Nat × Except Unit (List (List Nat × List Nat)) :=
  match descendSt (utf8Encode p) file 0 with
  | (f1, .error e) => (f1, .error e)
  | (f1, .ok none) => (f1, .ok [])
  | (f1, .ok (some nid)) => dfsSt (f1.length / NODE_SIZE + 1) f1 nid p

/-! ## Byte-codec lemmas -/

theorem setBytes_nil_bs : ∀ (buf : List Nat) (off : Nat), setBytes buf off [] = buf
  | [], _ => rfl
  | _ :: _, 0 => rfl
  | b :: rest, off + 1 => by
    show b :: setBytes rest off [] = b :: rest
    rw [setBytes_nil_bs rest off]

theorem setBytes_length : ∀ (buf : List Nat) (off : Nat) (bs : List Nat),
    (setBytes buf off bs).length = buf.length
  | [], _, _ => rfl
  | _ :: _, 0, [] => rfl
  | _ :: rest, 0, _ :: xs => by
    show (_ :: setBytes rest 0 xs).length = _
    simp [setBytes_length rest 0 xs]
  | _ :: rest, off + 1, bs => by
    show (_ :: setBytes rest off bs).length = _
    simp [setBytes_length rest off bs]

theorem getElem?_setBytes_low : ∀ (buf : List Nat) (off : Nat) (bs : List Nat) (i : Nat),
    i < off → (setBytes buf off bs)[i]? = buf[i]?
  | [], _, _, _, _ => rfl
  | _ :: _, 0, _, _, h => by omega
  | b :: rest, off + 1, bs, 0, _ => by
    show (b :: setBytes rest off bs)[0]? = _
    simp
  | b :: rest, off + 1, bs, i + 1, h => by
    show (b :: setBytes rest off bs)[i + 1]? = _
    simpa using getElem?_setBytes_low rest off bs i (by omega)

theorem getElem?_setBytes_high : ∀ (buf : List Nat) (off : Nat) (bs : List Nat) (i : Nat),
    off + bs.length ≤ i → (setBytes buf off bs)[i]? = buf[i]?
  | [], _, _, _, _ => rfl
  | _ :: _, 0, [], _, _ => by rw [setBytes_nil_bs]
  | _ :: rest, 0, x :: xs, i, h => by
    match i, h with
    | i + 1, h =>
      show (x :: setBytes rest 0 xs)[i + 1]? = _
      simpa using getElem?_setBytes_high rest 0 xs i (by simp at h; omega)
  | b :: rest, off + 1, bs, 0, h => by
    show (b :: setBytes rest off bs)[0]? = _
    simp
  | b :: rest, off + 1, bs, i + 1, h => by
    show (b :: setBytes rest off bs)[i + 1]? = _
    simpa using getElem?_setBytes_high rest off bs i (by omega)

theorem getElem?_setBytes_mid : ∀ (buf : List Nat) (off : Nat) (bs : List Nat) (i : Nat),
    off ≤ i → i < off + bs.length → i < buf.length →
    (setBytes buf off bs)[i]? = some (bs.getD (i - off) 0)
  | [], _, _, _, _, _, h => by simp at h
  | _ :: _, 0, [], i, _, h, _ => by simp at h
  | _ :: rest, 0, x :: xs, 0, _, _, _ => by
    show (x :: setBytes rest 0 xs)[0]? = _
    simp
  | _ :: rest, 0, x :: xs, i + 1, _, h2, h3 => by
    show (x :: setBytes rest 0 xs)[i + 1]? = _
    have := getElem?_setBytes_mid rest 0 xs i (by omega) (by simp at h2; omega) (by simp at h3; omega)
    simpa using this
  | b :: rest, off + 1, bs, 0, h1, _, _ => by omega
  | b :: rest, off + 1, bs, i + 1, h1, h2, h3 => by
    show (b :: setBytes rest off bs)[i + 1]? = _
    have := getElem?_setBytes_mid rest off bs i (by omega) (by omega) (by simp at h3; omega)
    simpa [Nat.succ_sub_succ] using this

theorem getD_setBytes_mid (buf : List Nat) (off : Nat) (bs : List Nat) (i : Nat)
    (h1 : off ≤ i) (h2 : i < off + bs.length) (h3 : i < buf.length) :
    (setBytes buf off bs).getD i 0 = bs.getD (i - off) 0 := by
  rw [List.getD_eq_getElem?_getD, getElem?_setBytes_mid buf off bs i h1 h2 h3]
  rfl

theorem packChildren_length : ∀ (ch : List (Nat × Nat)) (buf : List Nat) (i : Nat),
    (packChildren buf i ch).length = buf.length
  | [], _, _ => rfl
  | pr :: rest, buf, i => by
    show (packChildren (setBytes buf (36 + 3 * i) (pr.1 :: u16le pr.2)) (i + 1) rest).length = _
    rw [packChildren_length rest, setBytes_length]

theorem getElem?_packChildren_lt : ∀ (ch : List (Nat × Nat)) (buf : List Nat) (i j : Nat),
    j < 36 + 3 * i → (packChildren buf i ch)[j]? = buf[j]?
  | [], _, _, _, _ => rfl
  | pr :: rest, buf, i, j, hj => by
    show (packChildren (setBytes buf (36 + 3 * i) (pr.1 :: u16le pr.2)) (i + 1) rest)[j]? = _
    rw [getElem?_packChildren_lt rest _ (i + 1) j (by omega),
      getElem?_setBytes_low _ _ _ _ (by omega)]

theorem getElem?_packChildren_read : ∀ (ch : List (Nat × Nat)) (buf : List Nat) (i j : Nat),
    j < ch.length → 36 + 3 * (i + ch.length) ≤ buf.length →
    (packChildren buf i ch)[36 + 3 * (i + j)]? = some (ch.getD j (0, 0)).1 ∧
    (packChildren buf i ch)[36 + 3 * (i + j) + 1]? = some ((ch.getD j (0, 0)).2 % 256) ∧
    (packChildren buf i ch)[36 + 3 * (i + j) + 2]? = some ((ch.getD j (0, 0)).2 / 256 % 256)
  | [], _, _, j, hj, _ => by simp at hj
  | pr :: rest, buf, i, 0, hj, hlen => by
    simp only [List.length_cons] at hlen
    have hbuf : 36 + 3 * i + 3 ≤ buf.length := by omega
    show (packChildren (setBytes buf (36 + 3 * i) (pr.1 :: u16le pr.2)) (i + 1) rest)[36 + 3 * (i + 0)]? = _ ∧
      (packChildren (setBytes buf (36 + 3 * i) (pr.1 :: u16le pr.2)) (i + 1) rest)[36 + 3 * (i + 0) + 1]? = _ ∧
      (packChildren (setBytes buf (36 + 3 * i) (pr.1 :: u16le pr.2)) (i + 1) rest)[36 + 3 * (i + 0) + 2]? = _
    refine ⟨?_, ?_, ?_⟩
    · rw [getElem?_packChildren_lt rest _ (i + 1) _ (by omega),
        getElem?_setBytes_mid _ _ _ _ (by omega) (by simp only [List.length_cons, u16le, List.length_nil]; omega) (by omega)]
      have : 36 + 3 * (i + 0) - (36 + 3 * i) = 0 := by omega
      rw [this]
      rfl
    · rw [getElem?_packChildren_lt rest _ (i + 1) _ (by omega),
        getElem?_setBytes_mid _ _ _ _ (by omega) (by simp only [List.length_cons, u16le, List.length_nil]; omega) (by omega)]
      have : 36 + 3 * (i + 0) + 1 - (36 + 3 * i) = 1 := by omega
      rw [this]
      rfl
    · rw [getElem?_packChildren_lt rest _ (i + 1) _ (by omega),
        getElem?_setBytes_mid _ _ _ _ (by omega) (by simp only [List.length_cons, u16le, List.length_nil]; omega) (by omega)]
      have : 36 + 3 * (i + 0) + 2 - (36 + 3 * i) = 2 := by omega
      rw [this]
      rfl
  | pr :: rest, buf, i, j + 1, hj, hlen => by
    simp only [List.length_cons] at hj hlen
    have ih := getElem?_packChildren_read rest (setBytes buf (36 + 3 * i) (pr.1 :: u16le pr.2)) (i + 1) j
      (by omega) (by rw [setBytes_length]; omega)
    have harith : 36 + 3 * (i + (j + 1)) = 36 + 3 * ((i + 1) + j) := by omega
    have hg : (pr :: rest).getD (j + 1) (0, 0) = rest.getD j (0, 0) := rfl
    show (packChildren (setBytes buf (36 + 3 * i) (pr.1 :: u16le pr.2)) (i + 1) rest)[36 + 3 * (i + (j + 1))]? = _ ∧
      (packChildren (setBytes buf (36 + 3 * i) (pr.1 :: u16le pr.2)) (i + 1) rest)[36 + 3 * (i + (j + 1)) + 1]? = _ ∧
      (packChildren (setBytes buf (36 + 3 * i) (pr.1 :: u16le pr.2)) (i + 1) rest)[36 + 3 * (i + (j + 1)) + 2]? = _
    rw [harith, hg]
    exact ih

theorem length_flatten_u32 : ∀ (vals : List Nat), ((vals.map u32le).flatten).length = 4 * vals.length
  | [] => rfl
  | v :: rest => by
    simp only [List.map_cons, List.flatten_cons, List.length_append, length_flatten_u32 rest]
    simp [u32le]
    omega

theorem getD_flatten_u32 : ∀ (vals : List Nat) (i k : Nat), i < vals.length → k < 4 →
    ((vals.map u32le).flatten).getD (4 * i + k) 0 = (u32le (vals.getD i 0)).getD k 0
  | [], i, k, hi, _ => by simp at hi
  | v :: rest, 0, k, hi, hk => by
    simp only [List.map_cons, List.flatten_cons, Nat.mul_zero, Nat.zero_add]
    rw [List.getD_eq_getElem?_getD, List.getElem?_append_left (by simp [u32le]; omega),
      ← List.getD_eq_getElem?_getD]
    rfl
  | v :: rest, i + 1, k, hi, hk => by
    simp only [List.map_cons, List.flatten_cons]
    rw [List.getD_eq_getElem?_getD, List.getElem?_append_right (by simp [u32le]; omega)]
    have : 4 * (i + 1) + k - (u32le v).length = 4 * i + k := by simp [u32le]; omega
    rw [this, ← List.getD_eq_getElem?_getD]
    exact getD_flatten_u32 rest i k (by simpa using Nat.lt_of_succ_lt_succ (by simpa using hi)) hk

theorem leUnpack4_u32 (v : Nat) (data : List Nat) (o : Nat) (hv : v < 2 ^ 32)
    (h0 : data.getD o 0 = v % 256) (h1 : data.getD (o + 1) 0 = v / 256 % 256)
    (h2 : data.getD (o + 2) 0 = v / 65536 % 256) (h3 : data.getD (o + 3) 0 = v / 16777216 % 256) :
    leUnpack4 data o = v := by
  unfold leUnpack4
  rw [h0, h1, h2, h3]
  omega

theorem leUnpack2_u16 (v : Nat) (data : List Nat) (o : Nat) (hv : v < 2 ^ 16)
    (h0 : data.getD o 0 = v % 256) (h1 : data.getD (o + 1) 0 = v / 256 % 256) :
    leUnpack2 data o = v := by
  unfold leUnpack2
  rw [h0, h1]
  omega

theorem writeAt_drop_take (file : List Nat) (pos : Nat) (buf : List Nat) :
    ((writeAt file pos buf).drop pos).take buf.length = buf := by
  unfold writeAt
  have hassoc : file.take pos ++ List.replicate (pos - file.length) 0 ++ buf ++ file.drop (pos + buf.length) =
      (file.take pos ++ List.replicate (pos - file.length) 0) ++ (buf ++ file.drop (pos + buf.length)) := by
    simp [List.append_assoc]
  rw [hassoc]
  generalize hA : file.take pos ++ List.replicate (pos - file.length) 0 = A
  have hAlen : A.length = pos := by
    rw [← hA]
    simp
    omega
  rw [← hAlen, List.drop_left, List.take_left]

/-- Round trip of the byte codec: every record the engine writes (a byte-valued
`char`, at most `MAX_VALUES` 32-bit values, at most 255 children with byte
labels and 16-bit ids) is written without error and read back exactly.  This
ties the record-level model to the byte-level store. -/
theorem read_write_node_bytes (file : List Nat) (id : Nat) (ch : Nat) (tm : Bool)
    (vals : List Nat) (children : List (Nat × Nat))
    (hch : ch < 256) (hv : ∀ v ∈ vals, v < 2 ^ 32) (hvl : vals.length ≤ MAX_VALUES)
    (hcb : ∀ pr ∈ children, pr.1 < 256) (hcid : ∀ pr ∈ children, pr.2 < 2 ^ 16)
    (hcl : children.length ≤ 255) :
    ∃ f1, write_node_bytes file id ch tm vals children = .ok f1 ∧
      read_node_bytes f1 id = .ok (some ⟨ch, tm, vals, children⟩) := by
  rw [MAX_VALUES] at hvl
  set J := (vals.map u32le).flatten with hJ
  have hJlen : J.length = 4 * vals.length := length_flatten_u32 vals
  set b1 := setBytes (List.replicate NODE_SIZE 0) 0 [ch] with hb1
  set b2 := setBytes b1 1 [if tm then 1 else 0] with hb2
  set b3 := setBytes b2 2 [vals.length] with hb3
  set b4 := setBytes b3 3 J with hb4
  set b5 := setBytes b4 35 [children.length] with hb5
  set bufF := packChildren b5 0 children with hbufF
  have l1 : b1.length = 1024 := by
    rw [hb1, setBytes_length, List.length_replicate]
    rfl
  have l2 : b2.length = 1024 := by rw [hb2, setBytes_length, l1]
  have l3 : b3.length = 1024 := by rw [hb3, setBytes_length, l2]
  have l4 : b4.length = 1024 := by rw [hb4, setBytes_length, l3]
  have l5 : b5.length = 1024 := by rw [hb5, setBytes_length, l4]
  have lF : bufF.length = 1024 := by rw [hbufF, packChildren_length, l5]
  have henc : encode_node ch tm vals children = .ok bufF := by
    unfold encode_node
    rw [if_neg (by omega), if_neg (by push_neg; intro v hvm; have := hv v hvm; omega),
      if_neg (by omega),
      if_neg (by
        push_neg
        intro pr hpr
        have h1 := hcb pr hpr
        have h2 := hcid pr hpr
        omega)]
  -- field reads from the final buffer
  have g0 : bufF.getD 0 0 = ch := by
    rw [List.getD_eq_getElem?_getD, hbufF, getElem?_packChildren_lt children b5 0 0 (by omega),
      hb5, getElem?_setBytes_low b4 35 [children.length] 0 (by omega),
      hb4, getElem?_setBytes_low b3 3 J 0 (by omega),
      hb3, getElem?_setBytes_low b2 2 [vals.length] 0 (by omega),
      hb2, getElem?_setBytes_low b1 1 [if tm = true then 1 else 0] 0 (by omega),
      hb1, getElem?_setBytes_mid (List.replicate NODE_SIZE 0) 0 [ch] 0 (by omega) (by simp)
        (by rw [List.length_replicate]; decide)]
    rfl
  have g1 : bufF.getD 1 0 = (if tm then 1 else 0) := by
    rw [List.getD_eq_getElem?_getD, hbufF, getElem?_packChildren_lt children b5 0 1 (by omega),
      hb5, getElem?_setBytes_low b4 35 [children.length] 1 (by omega),
      hb4, getElem?_setBytes_low b3 3 J 1 (by omega),
      hb3, getElem?_setBytes_low b2 2 [vals.length] 1 (by omega),
      hb2, getElem?_setBytes_mid b1 1 [if tm = true then 1 else 0] 1 (by omega) (by simp)
        (by rw [l1]; omega)]
    rfl
  have g2 : bufF.getD 2 0 = vals.length := by
    rw [List.getD_eq_getElem?_getD, hbufF, getElem?_packChildren_lt children b5 0 2 (by omega),
      hb5, getElem?_setBytes_low b4 35 [children.length] 2 (by omega),
      hb4, getElem?_setBytes_low b3 3 J 2 (by omega),
      hb3, getElem?_setBytes_mid b2 2 [vals.length] 2 (by omega) (by simp) (by rw [l2]; omega)]
    rfl
  have g35 : bufF.getD 35 0 = children.length := by
    rw [List.getD_eq_getElem?_getD, hbufF, getElem?_packChildren_lt children b5 0 35 (by omega),
      hb5, getElem?_setBytes_mid b4 35 [children.length] 35 (by omega) (by simp)
        (by rw [l4]; omega)]
    rfl
  have gvals : ∀ i, i < vals.length → ∀ k, k < 4 →
      bufF.getD (3 + 4 * i + k) 0 = (u32le (vals.getD i 0)).getD k 0 := by
    intro i hi k hk
    have hidx : 3 + 4 * i + k < 35 := by omega
    rw [List.getD_eq_getElem?_getD, hbufF,
      getElem?_packChildren_lt children b5 0 (3 + 4 * i + k) (by omega),
      hb5, getElem?_setBytes_low b4 35 [children.length] (3 + 4 * i + k) (by omega),
      hb4, getElem?_setBytes_mid b3 3 J (3 + 4 * i + k) (by omega) (by rw [hJlen]; omega)
        (by rw [l3]; omega)]
    have : 3 + 4 * i + k - 3 = 4 * i + k := by omega
    rw [this]
    show J.getD (4 * i + k) 0 = _
    exact getD_flatten_u32 vals i k hi hk
  have gch : ∀ j, j < children.length →
      bufF.getD (36 + 3 * j) 0 = (children.getD j (0, 0)).1 ∧
      bufF.getD (36 + 3 * j + 1) 0 = (children.getD j (0, 0)).2 % 256 ∧
      bufF.getD (36 + 3 * j + 2) 0 = (children.getD j (0, 0)).2 / 256 % 256 := by
    intro j hj
    have h := getElem?_packChildren_read children b5 0 j hj (by rw [l5]; omega)
    refine ⟨?_, ?_, ?_⟩
    · rw [List.getD_eq_getElem?_getD, hbufF]
      have h0 := h.1
      simp only [Nat.zero_add] at h0
      rw [h0]
      rfl
    · rw [List.getD_eq_getElem?_getD, hbufF]
      have h1 := h.2.1
      simp only [Nat.zero_add] at h1
      rw [h1]
      rfl
    · rw [List.getD_eq_getElem?_getD, hbufF]
      have h2 := h.2.2
      simp only [Nat.zero_add] at h2
      rw [h2]
      rfl
  refine ⟨writeAt file (id * NODE_SIZE) bufF, ?_, ?_⟩
  · unfold write_node_bytes
    rw [henc]
  · unfold read_node_bytes
    have hslice : ((writeAt file (id * NODE_SIZE) bufF).drop (id * NODE_SIZE)).take NODE_SIZE = bufF := by
      have h := writeAt_drop_take file (id * NODE_SIZE) bufF
      rw [lF] at h
      exact h
    rw [hslice]
    have hterm : (decide (bufF.getD 1 0 ≠ 0)) = tm := by
      rw [g1]
      rcases tm with _ | _ <;> simp
    have hvalseq : (List.range (bufF.getD 2 0)).map (fun i => leUnpack4 bufF (3 + 4 * i)) = vals := by
      rw [g2]
      apply List.ext_getElem
      · simp
      · intro i h1 h2
        simp only [List.getElem_map, List.getElem_range]
        simp only [List.length_map, List.length_range] at h1
        have hgd : vals.getD i 0 = vals[i] := List.getD_eq_getElem vals 0 h1
        have hvi : vals.getD i 0 < 2 ^ 32 := by
          apply hv
          rw [hgd]
          exact List.getElem_mem h1
        rw [← hgd]
        apply leUnpack4_u32 _ _ _ hvi
        · have h := gvals i h1 0 (by omega)
          simpa [u32le] using h
        · have h := gvals i h1 1 (by omega)
          simpa [u32le] using h
        · have h := gvals i h1 2 (by omega)
          simpa [u32le] using h
        · have h := gvals i h1 3 (by omega)
          simpa [u32le] using h
    have hcheq : (List.range (bufF.getD 35 0)).map (fun i =>
        (bufF.getD (36 + 3 * i) 0, leUnpack2 bufF (37 + 3 * i))) = children := by
      rw [g35]
      apply List.ext_getElem
      · simp
      · intro j h1 h2
        simp only [List.getElem_map, List.getElem_range]
        simp only [List.length_map, List.length_range] at h1
        have hj := gch j h1
        have hcj : children.getD j (0, 0) = children[j] := List.getD_eq_getElem children (0, 0) h1
        rw [← hcj]
        have hid : (children.getD j (0, 0)).2 < 2 ^ 16 := by
          apply hcid
          rw [hcj]
          exact List.getElem_mem h1
        have e1 : (37 + 3 * j) = (36 + 3 * j) + 1 := by omega
        refine Prod.ext ?_ ?_
        · simpa using hj.1
        · show leUnpack2 bufF (37 + 3 * j) = _
          rw [e1]
          apply leUnpack2_u16 _ _ _ hid
          · exact hj.2.1
          · have h22 := hj.2.2
            have e2 : 36 + 3 * j + 1 + 1 = 36 + 3 * j + 2 := by omega
            rw [e2]
            exact h22
    unfold decode_node
    rw [if_neg (by rw [lF]; omega), if_neg (by rw [lF]; omega),
      if_neg (by rw [lF, g2]; omega), if_neg (by rw [lF]; omega),
      if_neg (by rw [lF, g35]; push_neg; intro; omega),
      g0, hterm, hvalseq, hcheq]

/-! ## Read-only frame lemmas for `lookup` and `prefix_search` -/

theorem descendSt_fst : ∀ (kb : List Nat) (f : List Nat) (nid : Nat),
    (descendSt kb f nid).1 = f
  | [], _, _ => rfl
  | c :: rest, f, nid => by
    show (match readSt f nid with
      | (f1, Except.error e) => (f1, Except.error e)
      | (f1, Except.ok none) => (f1, Except.error ())
      | (f1, Except.ok (some node)) =>
        match findChild node.children c with
        | none => (f1, Except.ok none)
        | some cid => descendSt rest f1 cid).1 = f
    unfold readSt
    rcases read_node_bytes f nid with e | o
    · rfl
    · rcases o with _ | node
      · rfl
      · rcases hfc : findChild node.children c with _ | cid
        · simp [hfc]
        · simp only [hfc]
          exact descendSt_fst rest f cid

theorem dfsSt_fst : ∀ (fuel : Nat) (f : List Nat) (nid : Nat) (path : List Nat),
    (dfsSt fuel f nid path).1 = f
  | 0, _, _, _ => rfl
  | fuel + 1, f, nid, path => by
    show (match readSt f nid with
      | (f1, Except.error e) => (f1, Except.error e)
      | (f1, Except.ok none) => (f1, Except.error ())
      | (f1, Except.ok (some node)) =>
        node.children.foldl
          (fun (acc : List Nat × Except Unit (List (List Nat × List Nat))) (pr : Nat × Nat) =>
            match acc with
            | (fa, Except.error e) => (fa, Except.error e)
            | (fa, Except.ok rs) =>
              match dfsSt fuel fa pr.2 (path ++ [pr.1]) with
              | (fb, Except.error e) => (fb, Except.error e)
              | (fb, Except.ok rs1) => (fb, Except.ok (rs ++ rs1)))
          (f1, Except.ok (if node.is_terminal then [(path, node.values)] else []))).1 = f
    unfold readSt
    rcases read_node_bytes f nid with e | o
    · rfl
    · rcases o with _ | node
      · rfl
      · show (node.children.foldl _ (f, Except.ok _)).1 = f
        generalize (Except.ok (if node.is_terminal then [(path, node.values)] else []) :
          Except Unit (List (List Nat × List Nat))) = r0
        have hfold : ∀ (ch : List (Nat × Nat)) (acc : List Nat × Except Unit (List (List Nat × List Nat))),
            acc.1 = f →
            (ch.foldl (fun (acc : List Nat × Except Unit (List (List Nat × List Nat))) (pr : Nat × Nat) =>
              match acc with
              | (fa, Except.error e) => (fa, Except.error e)
              | (fa, Except.ok rs) =>
                match dfsSt fuel fa pr.2 (path ++ [pr.1]) with
                | (fb, Except.error e) => (fb, Except.error e)
                | (fb, Except.ok rs1) => (fb, Except.ok (rs ++ rs1))) acc).1 = f := by
          intro ch
          induction ch with
          | nil => intro acc hacc; exact hacc
          | cons pr rest ih =>
            intro acc hacc
            apply ih
            rcases acc with ⟨fa, ea⟩
            have hfa : fa = f := hacc
            rcases ea with e | rs
            · exact hfa
            · have hd := dfsSt_fst fuel fa pr.2 (path ++ [pr.1])
              rcases hdd : dfsSt fuel fa pr.2 (path ++ [pr.1]) with ⟨fb, eb⟩
              rw [hdd] at hd
              have hfb : fb = f := by
                have h1 : fb = fa := hd
                rw [h1]
                exact hfa
              show (match dfsSt fuel fa pr.2 (path ++ [pr.1]) with
                | (fb, Except.error e) => (fb, Except.error e)
                | (fb, Except.ok rs1) => (fb, Except.ok (rs ++ rs1))).1 = f
              rw [hdd]
              rcases eb with e | rs1
              · exact hfb
              · exact hfb
        exact hfold node.children (f, r0) rfl

theorem lookupSt_fst (f : List Nat) (kb : List Nat) : (lookupSt f kb).1 = f := by
  unfold lookupSt
  have hd := descendSt_fst kb f 0
  rcases hdd : descendSt kb f 0 with ⟨f1, e1⟩
  rw [hdd] at hd
  rcases e1 with e | o
  · exact hd
  · rcases o with _ | nid
    · exact hd
    · show (match readSt f1 nid with
        | (f2, Except.error e) => (f2, Except.error e)
        | (f2, Except.ok none) => (f2, Except.error ())
        | (f2, Except.ok (some node)) =>
          (f2, Except.ok (if node.is_terminal then node.values else []))).1 = f
      unfold readSt
      rcases read_node_bytes f1 nid with e | o2
      · exact hd
      · rcases o2 with _ | node
        · exact hd
        · exact hd

theorem prefixSearchSt_fst (f : List Nat) (p : List Nat) : (prefixSearchSt f p).1 = f := by
  unfold prefixSearchSt
  have hd := descendSt_fst (utf8Encode p) f 0
  rcases hdd : descendSt (utf8Encode p) f 0 with ⟨f1, e1⟩
  rw [hdd] at hd
  rcases e1 with e | o
  · exact hd
  · rcases o with _ | nid
    · exact hd
    · rw [show (f1, Except.ok (some nid)).1 = f1 from rfl] at hd
      rw [hd]
      exact dfsSt_fst (f.length / NODE_SIZE + 1) f nid p

/-! ## Decoding behaviour on full and missing records -/

/-- A read past the end of the file yields an empty byte string, and
`_read_node` then returns `None` (not an error). -/
theorem read_node_bytes_past_end (f : List Nat) (id : Nat)
    (h : f.length ≤ id * NODE_SIZE) : read_node_bytes f id = .ok none := by
  unfold read_node_bytes
  have hnil : (f.drop (id * NODE_SIZE)).take NODE_SIZE = [] := by
    have : f.drop (id * NODE_SIZE) = [] := List.drop_eq_nil_of_le h
    rw [this, List.take_nil]
  rw [hnil]
  rfl

/-- Any full 1024-byte record decodes successfully, whatever its
`valueCount` and `childCount` bytes hold: both counts fit in one byte
(≤ 255), and `3 + 4·255 = 1023 ≤ 1024` and `36 + 3·255 = 801 ≤ 1024`, so no
access is ever out of range and no count check exists to fail. -/
theorem read_node_bytes_full (f : List Nat) (id : Nat)
    (hb : ∀ b ∈ f, b < 256) (hlen : (id + 1) * NODE_SIZE ≤ f.length) :
    ∃ n, read_node_bytes f id = .ok (some n) := by
  unfold read_node_bytes
  set data := (f.drop (id * NODE_SIZE)).take NODE_SIZE with hdata
  have hNS : NODE_SIZE = 1024 := rfl
  have hdl : data.length = 1024 := by
    rw [hdata, List.length_take, List.length_drop]
    rw [hNS] at hlen ⊢
    omega
  have hmem : ∀ b ∈ data, b < 256 := by
    intro b hbm
    exact hb b (List.drop_subset _ _ (List.take_subset _ _ hbm))
  have hnv : data.getD 2 0 < 256 := by
    apply hmem
    rw [List.getD_eq_getElem data 0 (by omega)]
    exact List.getElem_mem _
  have hnc : data.getD 35 0 < 256 := by
    apply hmem
    rw [List.getD_eq_getElem data 0 (by omega)]
    exact List.getElem_mem _
  refine ⟨⟨data.getD 0 0, decide (data.getD 1 0 ≠ 0),
    (List.range (data.getD 2 0)).map (fun i => leUnpack4 data (3 + 4 * i)),
    (List.range (data.getD 35 0)).map (fun i =>
      (data.getD (36 + 3 * i) 0, leUnpack2 data (37 + 3 * i)))⟩, ?_⟩
  unfold decode_node
  rw [if_neg (by omega), if_neg (by omega), if_neg (by omega), if_neg (by omega),
    if_neg (by push_neg; intro; omega)]

/-- Packing a child id that does not fit in 16 bits raises `struct.error`
inside `_write_node` before any byte reaches the file: the write fails as a
whole. -/
theorem write_node_bytes_id_overflow (file : List Nat) (id ch : Nat) (tm : Bool)
    (vals : List Nat) (children : List (Nat × Nat)) (pr : Nat × Nat)
    (hpr : pr ∈ children) (hid : 2 ^ 16 ≤ pr.2) :
    write_node_bytes file id ch tm vals children = .error () := by
  have henc : encode_node ch tm vals children = .error () := by
    unfold encode_node
    by_cases h1 : 255 < vals.length
    · rw [if_pos h1]
    · rw [if_neg h1]
      by_cases h2 : ∃ v ∈ vals, 2 ^ 32 ≤ v
      · rw [if_pos h2]
      · rw [if_neg h2]
        by_cases h3 : 255 < children.length
        · rw [if_pos h3]
        · rw [if_neg h3, if_pos ⟨pr, hpr, Or.inr hid⟩]
  unfold write_node_bytes
  rw [henc]

/-! ## Record-level store lemmas -/

theorem read_def (t : Trie) (i : Nat) : t.read i = t[i]? := rfl

theorem read_some_of_lt (t : Trie) (i : Nat) (h : i < t.length) : ∃ n, t.read i = some n := by
  rw [read_def]
  rcases hx : t[i]? with _ | n
  · rw [List.getElem?_eq_none_iff] at hx
    omega
  · exact ⟨n, rfl⟩

theorem lt_of_read_some (t : Trie) (i : Nat) (n : Node) (h : t.read i = some n) :
    i < t.length := by
  rw [read_def] at h
  by_contra hcon
  rw [List.getElem?_eq_none_iff.2 (by omega)] at h
  exact Option.noConfusion h

theorem read_write_lt (t : Trie) (id : Nat) (n : Node) (hid : id < t.length) (j : Nat) :
    (t.write id n).read j = if id = j then some n else t.read j := by
  rw [read_def, read_def, Trie.write, if_pos hid, List.getElem?_set]
  by_cases h : id = j
  · rw [if_pos h, if_pos h, if_pos (by omega)]
  · rw [if_neg h, if_neg h]

theorem read_write_append (t : Trie) (n : Node) (j : Nat) :
    (t.write t.length n).read j = if j = t.length then some n else t.read j := by
  rw [read_def, read_def, Trie.write, if_neg (by omega)]
  simp only [Nat.sub_self, List.replicate_zero, List.append_nil]
  rw [List.getElem?_append]
  by_cases h : j = t.length
  · rw [if_neg (by omega), if_pos h, h, Nat.sub_self]
    rfl
  · by_cases h2 : j < t.length
    · rw [if_pos h2, if_neg h]
    · rw [if_neg h2, if_neg h]
      rw [List.getElem?_eq_none_iff.2 (show ([n] : List Node).length ≤ j - t.length by
        simp only [List.length_singleton]; omega)]
      exact (List.getElem?_eq_none_iff.2 (by omega)).symm

theorem write_length_lt (t : Trie) (id : Nat) (n : Node) (hid : id < t.length) :
    (t.write id n).length = t.length := by
  rw [Trie.write, if_pos hid, List.length_set]

theorem write_length_append (t : Trie) (n : Node) :
    (t.write t.length n).length = t.length + 1 := by
  rw [Trie.write, if_neg (by omega)]
  simp

/-! ## Child-table scan lemmas -/

theorem findChild_mem : ∀ (ch : List (Nat × Nat)) (c cid : Nat),
    findChild ch c = some cid → (c, cid) ∈ ch
  | [], _, _, h => by simp [findChild] at h
  | p :: rest, c, cid, h => by
    simp only [findChild] at h
    by_cases hc : p.1 = c
    · rw [if_pos hc] at h
      have : (c, cid) = p := by
        rcases p with ⟨a, b⟩
        simp at hc h
        simp [hc, h]
      rw [this]
      exact List.mem_cons_self p rest
    · rw [if_neg hc] at h
      exact List.mem_cons_of_mem p (findChild_mem rest c cid h)

theorem findChild_none : ∀ (ch : List (Nat × Nat)) (c : Nat),
    findChild ch c = none ↔ ∀ pr ∈ ch, pr.1 ≠ c
  | [], c => by simp [findChild]
  | p :: rest, c => by
    rw [findChild]
    by_cases hc : p.1 = c
    · rw [if_pos hc]
      simp [hc]
    · rw [if_neg hc]
      rw [findChild_none rest c]
      constructor
      · intro h pr hpr
        rcases List.mem_cons.1 hpr with h1 | h1
        · rw [h1]; exact hc
        · exact h pr h1
      · intro h pr hpr
        exact h pr (List.mem_cons_of_mem p hpr)

theorem findChild_append_left : ∀ (a b : List (Nat × Nat)) (c cid : Nat),
    findChild a c = some cid → findChild (a ++ b) c = some cid
  | [], _, _, _, h => by simp [findChild] at h
  | p :: rest, b, c, cid, h => by
    simp only [findChild] at h ⊢
    by_cases hc : p.1 = c
    · rwa [if_pos hc] at h ⊢
    · rw [if_neg hc] at h ⊢
      exact findChild_append_left rest b c cid h

theorem findChild_append_none : ∀ (a b : List (Nat × Nat)) (c : Nat),
    findChild a c = none → findChild (a ++ b) c = findChild b c
  | [], _, _, _ => rfl
  | p :: rest, b, c, h => by
    simp only [findChild] at h ⊢
    by_cases hc : p.1 = c
    · rw [if_pos hc] at h
      exact Option.noConfusion h
    · rw [if_neg hc] at h ⊢
      exact findChild_append_none rest b c h

theorem findChild_append_cases (a b : List (Nat × Nat)) (c cid : Nat)
    (h : findChild (a ++ b) c = some cid) :
    findChild a c = some cid ∨ (findChild a c = none ∧ findChild b c = some cid) := by
  rcases ha : findChild a c with _ | cid1
  · right
    rw [findChild_append_none a b c ha] at h
    exact ⟨rfl, h⟩
  · left
    rw [findChild_append_left a b c cid1 ha] at h
    exact ha ▸ h

/-! ## The descent relation and well-formedness invariant -/

/-- The pure descent function: follow the child edge for each byte in turn
from node `nid`; `none` when a byte has no edge (or a read fails, which the
invariant below rules out).  `descend`/`insertLoop` are related to this
function below. -/
def followFrom (t : Trie) : Nat → List Nat → Option Nat
  | nid, [] => some nid
  | nid, c :: rest =>
    match t.read nid with
    | none => none
    | some node =>
      match findChild node.children c with
      | none => none
      | some cid => followFrom t cid rest

/-- Invariant of every reachable store state: the store is non-empty (the
root record exists), child ids are in range and strictly increase along
edges (each child is allocated after its parent), no node has two edges with
the same byte, value lists are duplicate-free and within `MAX_VALUES`,
non-terminal nodes carry no values, and every node has at most one incoming
edge (so the node graph is a tree rooted at identifier 0). -/
structure WF (t : Trie) : Prop where
  pos : 0 < t.length
  child_lt : ∀ i n pr, t.read i = some n → pr ∈ n.children → pr.2 < t.length
  child_gt : ∀ i n pr, t.read i = some n → pr ∈ n.children → i < pr.2
  bytes_nodup : ∀ i n, t.read i = some n → (n.children.map Prod.fst).Nodup
  vals_nodup : ∀ i n, t.read i = some n → n.values.Nodup
  vals_le : ∀ i n, t.read i = some n → n.values.length ≤ MAX_VALUES
  nonterm_nil : ∀ i n, t.read i = some n → n.is_terminal = false → n.values = []
  indeg : ∀ i1 n1 pr1 i2 n2 pr2, t.read i1 = some n1 → pr1 ∈ n1.children →
    t.read i2 = some n2 → pr2 ∈ n2.children → pr1.2 = pr2.2 → i1 = i2 ∧ pr1.1 = pr2.1

theorem read_initTrie (i : Nat) :
    (initTrie : Trie).read i = if i = 0 then some ⟨0, false, [], []⟩ else none := by
  rw [read_def]
  rcases i with _ | j
  · rfl
  · rw [if_neg (by omega)]
    rfl

theorem wf_initTrie : WF initTrie := by
  constructor
  · rw [initTrie]
    simp
  all_goals intro i n
  case child_lt =>
    intro pr hr hpr
    rw [read_initTrie] at hr
    rcases Nat.eq_zero_or_pos i with h0 | h0
    · rw [if_pos h0] at hr
      rcases hr
      simp at hpr
    · rw [if_neg (by omega)] at hr
      exact Option.noConfusion hr
  case child_gt =>
    intro pr hr hpr
    rw [read_initTrie] at hr
    rcases Nat.eq_zero_or_pos i with h0 | h0
    · rw [if_pos h0] at hr
      rcases hr
      simp at hpr
    · rw [if_neg (by omega)] at hr
      exact Option.noConfusion hr
  case bytes_nodup =>
    intro hr
    rw [read_initTrie] at hr
    rcases Nat.eq_zero_or_pos i with h0 | h0
    · rw [if_pos h0] at hr
      rcases hr
      simp
    · rw [if_neg (by omega)] at hr
      exact Option.noConfusion hr
  case vals_nodup =>
    intro hr
    rw [read_initTrie] at hr
    rcases Nat.eq_zero_or_pos i with h0 | h0
    · rw [if_pos h0] at hr
      rcases hr
      simp
    · rw [if_neg (by omega)] at hr
      exact Option.noConfusion hr
  case vals_le =>
    intro hr
    rw [read_initTrie] at hr
    rcases Nat.eq_zero_or_pos i with h0 | h0
    · rw [if_pos h0] at hr
      rcases hr
      simp
    · rw [if_neg (by omega)] at hr
      exact Option.noConfusion hr
  case nonterm_nil =>
    intro hr _
    rw [read_initTrie] at hr
    rcases Nat.eq_zero_or_pos i with h0 | h0
    · rw [if_pos h0] at hr
      rcases hr
      rfl
    · rw [if_neg (by omega)] at hr
      exact Option.noConfusion hr
  case indeg =>
    intro pr1 i2 n2 pr2 hr1 hpr1 hr2 hpr2 heq
    rw [read_initTrie] at hr1
    rcases Nat.eq_zero_or_pos i with h0 | h0
    · rw [if_pos h0] at hr1
      rcases hr1
      simp at hpr1
    · rw [if_neg (by omega)] at hr1
      exact Option.noConfusion hr1


/-! ## Descent lemmas -/

theorem followFrom_nil (t : Trie) (s : Nat) : followFrom t s [] = some s := rfl

theorem followFrom_append (t : Trie) : ∀ (a : List Nat) (s : Nat) (b : List Nat),
    followFrom t s (a ++ b) =
      match followFrom t s a with
      | none => none
      | some m => followFrom t m b := by
  intro a
  induction a with
  | nil => intro s b; rfl
  | cons c rest ih =>
    intro s b
    show followFrom t s (c :: (rest ++ b)) = _
    simp only [followFrom]
    rcases hr : t.read s with _ | node
    · rfl
    · rcases hf : findChild node.children c with _ | cid
      · simp only [hf]
      · simp only [hf]
        exact ih cid b

theorem followFrom_le (t : Trie) (hwf : WF t) : ∀ (kb : List Nat) (m r : Nat),
    followFrom t m kb = some r → m ≤ r := by
  intro kb
  induction kb with
  | nil =>
    intro m r h
    exact Nat.le_of_eq (Option.some.inj h)
  | cons c rest ih =>
    intro m r h
    simp only [followFrom] at h
    rcases hr : t.read m with _ | node
    · rw [hr] at h
      exact Option.noConfusion h
    · rw [hr] at h
      rcases hf : findChild node.children c with _ | cid
      · simp only [hf] at h
        exact Option.noConfusion h
      · simp only [hf] at h
        have h1 : m < cid := hwf.child_gt m node (c, cid) hr (findChild_mem _ _ _ hf)
        have h2 := ih cid r h
        omega

theorem followFrom_lt (t : Trie) (hwf : WF t) : ∀ (kb : List Nat) (m r : Nat),
    m < t.length → followFrom t m kb = some r → r < t.length := by
  intro kb
  induction kb with
  | nil =>
    intro m r hm h
    rw [← Option.some.inj h]
    exact hm
  | cons c rest ih =>
    intro m r hm h
    simp only [followFrom] at h
    rcases hr : t.read m with _ | node
    · rw [hr] at h
      exact Option.noConfusion h
    · rw [hr] at h
      rcases hf : findChild node.children c with _ | cid
      · simp only [hf] at h
        exact Option.noConfusion h
      · simp only [hf] at h
        have h1 : cid < t.length := hwf.child_lt m node (c, cid) hr (findChild_mem _ _ _ hf)
        exact ih cid r h1 h

/-- Under the invariant the descent loop of `lookup` never crashes and agrees
with the pure descent function. -/
theorem descend_eq (t : Trie) (hwf : WF t) : ∀ (kb : List Nat) (nid : Nat),
    nid < t.length → descend t nid kb = some (followFrom t nid kb) := by
  intro kb
  induction kb with
  | nil => intro nid _; rfl
  | cons c rest ih =>
    intro nid hnid
    obtain ⟨node, hr⟩ := read_some_of_lt t nid hnid
    show (match t.read nid with
      | none => none
      | some node =>
        match findChild node.children c with
        | none => some none
        | some cid => descend t cid rest) = _
    simp only [followFrom, hr]
    rcases hf : findChild node.children c with _ | cid
    · rfl
    · have h1 : cid < t.length := hwf.child_lt nid node (c, cid) hr (findChild_mem _ _ _ hf)
      exact ih cid h1

/-! ## The two-write child-creation step -/

/-- The state produced by the creation branch of `_find_or_create_child`:
the parent re-written with the new edge `(c, t.length)` appended, then the
fresh empty child record written at the allocated identifier `t.length`. -/
def extendChild (t : Trie) (nid c : Nat) (node : Node) : Trie :=
  (t.write nid ⟨node.char, node.is_terminal, node.values, node.children ++ [(c, t.length)]⟩).write
    t.length ⟨c, false, [], []⟩

theorem read_extend (t : Trie) (nid c : Nat) (node : Node)
    (hread : t.read nid = some node) (i : Nat) :
    (extendChild t nid c node).read i =
      if i = t.length then some ⟨c, false, [], []⟩
      else if i = nid then
        some ⟨node.char, node.is_terminal, node.values, node.children ++ [(c, t.length)]⟩
      else t.read i := by
  unfold extendChild
  have hlt : nid < t.length := lt_of_read_some t nid node hread
  have hlen1 : (t.write nid ⟨node.char, node.is_terminal, node.values,
      node.children ++ [(c, t.length)]⟩).length = t.length :=
    write_length_lt t nid _ hlt
  have hW := read_write_append
    (t.write nid ⟨node.char, node.is_terminal, node.values, node.children ++ [(c, t.length)]⟩)
    ⟨c, false, [], []⟩ i
  rw [hlen1] at hW
  rw [hW]
  by_cases h1 : i = t.length
  · rw [if_pos h1, if_pos h1]
  · rw [if_neg h1, if_neg h1, read_write_lt t nid _ hlt i]
    by_cases h2 : i = nid
    · rw [if_pos h2.symm, if_pos h2]
    · rw [if_neg (fun hh => h2 hh.symm), if_neg h2]

theorem length_extend (t : Trie) (nid c : Nat) (node : Node)
    (hread : t.read nid = some node) :
    (extendChild t nid c node).length = t.length + 1 := by
  unfold extendChild
  have hlt : nid < t.length := lt_of_read_some t nid node hread
  have hlen1 : (t.write nid ⟨node.char, node.is_terminal, node.values,
      node.children ++ [(c, t.length)]⟩).length = t.length :=
    write_length_lt t nid _ hlt
  have hW := write_length_append
    (t.write nid ⟨node.char, node.is_terminal, node.values, node.children ++ [(c, t.length)]⟩)
    ⟨c, false, [], []⟩
  rw [hlen1] at hW
  exact hW

/-- Every edge of the extended state is an old edge or the single new edge. -/
theorem edge_extend (t : Trie) (nid c : Nat) (node : Node)
    (hread : t.read nid = some node)
    (i : Nat) (n : Node) (pr : Nat × Nat)
    (hr : (extendChild t nid c node).read i = some n)
    (hpr : pr ∈ n.children) :
    (∃ n0, t.read i = some n0 ∧ pr ∈ n0.children) ∨ (i = nid ∧ pr = (c, t.length)) := by
  rw [read_extend t nid c node hread i] at hr
  by_cases h1 : i = t.length
  · rw [if_pos h1] at hr
    rcases hr
    simp at hpr
  · rw [if_neg h1] at hr
    by_cases h2 : i = nid
    · rw [if_pos h2] at hr
      rcases hr
      rcases List.mem_append.1 hpr with hm | hm
      · exact Or.inl ⟨node, h2 ▸ hread, hm⟩
      · right
        refine ⟨h2, ?_⟩
        simpa using hm
    · rw [if_neg h2] at hr
      exact Or.inl ⟨n, hr, hpr⟩

theorem wf_extend (t : Trie) (nid c : Nat) (node : Node)
    (hwf : WF t) (hread : t.read nid = some node)
    (hmiss : findChild node.children c = none) :
    WF (extendChild t nid c node) := by
  have hlt : nid < t.length := lt_of_read_some t nid node hread
  have hL := length_extend t nid c node hread
  have hR := read_extend t nid c node hread
  constructor
  case pos => omega
  case child_lt =>
    intro i n pr hr hpr
    rw [hL]
    rcases edge_extend t nid c node hread i n pr hr hpr with ⟨n0, hr0, hm0⟩ | ⟨_, hpr2⟩
    · have := hwf.child_lt i n0 pr hr0 hm0
      omega
    · rw [hpr2]
      omega
  case child_gt =>
    intro i n pr hr hpr
    rcases edge_extend t nid c node hread i n pr hr hpr with ⟨n0, hr0, hm0⟩ | ⟨hi, hpr2⟩
    · exact hwf.child_gt i n0 pr hr0 hm0
    · rw [hpr2, hi]
      exact hlt
  case bytes_nodup =>
    intro i n hr
    rw [hR] at hr
    by_cases h1 : i = t.length
    · rw [if_pos h1] at hr
      rcases hr
      simp
    · rw [if_neg h1] at hr
      by_cases h2 : i = nid
      · rw [if_pos h2] at hr
        rcases hr
        have hold := hwf.bytes_nodup nid node hread
        have hnotin : c ∉ node.children.map Prod.fst := by
          intro hin
          rcases List.mem_map.1 hin with ⟨pr, hpr, hc⟩
          exact ((findChild_none node.children c).1 hmiss pr hpr) hc
        simp only [List.map_append]
        simp [List.nodup_append, hold, hnotin]
      · rw [if_neg h2] at hr
        exact hwf.bytes_nodup i n hr
  case vals_nodup =>
    intro i n hr
    rw [hR] at hr
    by_cases h1 : i = t.length
    · rw [if_pos h1] at hr
      rcases hr
      simp
    · rw [if_neg h1] at hr
      by_cases h2 : i = nid
      · rw [if_pos h2] at hr
        rcases hr
        exact hwf.vals_nodup nid node hread
      · rw [if_neg h2] at hr
        exact hwf.vals_nodup i n hr
  case vals_le =>
    intro i n hr
    rw [hR] at hr
    by_cases h1 : i = t.length
    · rw [if_pos h1] at hr
      rcases hr
      simp [MAX_VALUES]
    · rw [if_neg h1] at hr
      by_cases h2 : i = nid
      · rw [if_pos h2] at hr
        rcases hr
        exact hwf.vals_le nid node hread
      · rw [if_neg h2] at hr
        exact hwf.vals_le i n hr
  case nonterm_nil =>
    intro i n hr ht
    rw [hR] at hr
    by_cases h1 : i = t.length
    · rw [if_pos h1] at hr
      rcases hr
      rfl
    · rw [if_neg h1] at hr
      by_cases h2 : i = nid
      · rw [if_pos h2] at hr
        rcases hr
        exact hwf.nonterm_nil nid node hread ht
      · rw [if_neg h2] at hr
        exact hwf.nonterm_nil i n hr ht
  case indeg =>
    intro i1 n1 pr1 i2 n2 pr2 hr1 hpr1 hr2 hpr2 heq
    rcases edge_extend t nid c node hread i1 n1 pr1 hr1 hpr1 with ⟨m1, hrm1, hmm1⟩ | ⟨hi1, hp1⟩
    · rcases edge_extend t nid c node hread i2 n2 pr2 hr2 hpr2 with ⟨m2, hrm2, hmm2⟩ | ⟨hi2, hp2⟩
      · exact hwf.indeg i1 m1 pr1 i2 m2 pr2 hrm1 hmm1 hrm2 hmm2 heq
      · exfalso
        have := hwf.child_lt i1 m1 pr1 hrm1 hmm1
        rw [heq, hp2] at this
        simp at this
    · rcases edge_extend t nid c node hread i2 n2 pr2 hr2 hpr2 with ⟨m2, hrm2, hmm2⟩ | ⟨hi2, hp2⟩
      · exfalso
        have := hwf.child_lt i2 m2 pr2 hrm2 hmm2
        rw [← heq, hp1] at this
        simp at this
      · rw [hi1, hi2, hp1, hp2]
        exact ⟨rfl, rfl⟩


/-! ## `_find_or_create_child` equations -/

theorem find_or_create_found (t : Trie) (pid c : Nat) (node : Node)
    (hread : t.read pid = some node) (cid : Nat)
    (hf : findChild node.children c = some cid) :
    find_or_create_child t pid c = some (t, cid) := by
  unfold find_or_create_child
  rw [hread]
  simp only [hf]

theorem find_or_create_create (t : Trie) (pid c : Nat) (node : Node)
    (hread : t.read pid = some node) (hf : findChild node.children c = none) :
    find_or_create_child t pid c = some (extendChild t pid c node, t.length) := by
  unfold find_or_create_child
  rw [hread]
  simp only [hf]
  rfl

/-! ## The main traversal lemma for `insert` -/

/-- Complete characterisation of the traversal loop of `insert` from any node
of a well-formed state: it succeeds, preserves the invariant, only ever
appends fresh-target edges to existing nodes, creates only fresh non-terminal
valueless records, ends on a node reachable by the key from the start node,
and is a strict no-op on the state when the path already exists. -/
theorem insertLoop_spec : ∀ (kb : List Nat) (t : Trie) (nid : Nat), WF t → nid < t.length →
    ∃ t1 fin,
      insertLoop t nid kb = some (t1, fin) ∧
      WF t1 ∧
      t.length ≤ t1.length ∧
      fin < t1.length ∧
      (∀ i n, t.read i = some n → ∃ ext, t1.read i =
        some ⟨n.char, n.is_terminal, n.values, n.children ++ ext⟩ ∧
        (∀ pr ∈ ext, t.length ≤ pr.2)) ∧
      (∀ i n, t.length ≤ i → t1.read i = some n → n.is_terminal = false ∧ n.values = []) ∧
      followFrom t1 nid kb = some fin ∧
      (∀ fin0, followFrom t nid kb = some fin0 → t1 = t ∧ fin = fin0)
  | [], t, nid, hwf, hnid => by
    refine ⟨t, nid, rfl, hwf, Nat.le_refl _, hnid, ?_, ?_, rfl, ?_⟩
    · intro i n hr
      exact ⟨[], by simpa using hr, by simp⟩
    · intro i n hge hr
      have hlt := lt_of_read_some t i n hr
      omega
    · intro fin0 h0
      exact ⟨rfl, Option.some.inj h0⟩
  | c :: rest, t, nid, hwf, hnid => by
    obtain ⟨node, hread⟩ := read_some_of_lt t nid hnid
    rcases hfc : findChild node.children c with _ | cid
    · -- creation case
      have hwfE : WF (extendChild t nid c node) := wf_extend t nid c node hwf hread hfc
      have hLE : (extendChild t nid c node).length = t.length + 1 :=
        length_extend t nid c node hread
      have hRE := read_extend t nid c node hread
      obtain ⟨t1, fin, hloop, hwf1, hlen1, hfin1, hpres1, hfresh1, hfollow1, hexist1⟩ :=
        insertLoop_spec rest (extendChild t nid c node) t.length hwfE (by omega)
      have hreadE : (extendChild t nid c node).read nid =
          some ⟨node.char, node.is_terminal, node.values, node.children ++ [(c, t.length)]⟩ := by
        rw [hRE nid, if_neg (by omega), if_pos rfl]
      have hreadNew : (extendChild t nid c node).read t.length = some ⟨c, false, [], []⟩ := by
        rw [hRE t.length, if_pos rfl]
      refine ⟨t1, fin, ?_, hwf1, by omega, hfin1, ?_, ?_, ?_, ?_⟩
      · -- loop equation
        show (match find_or_create_child t nid c with
          | none => none
          | some (t2, nid1) => insertLoop t2 nid1 rest) = some (t1, fin)
        rw [find_or_create_create t nid c node hread hfc]
        exact hloop
      · -- old-node preservation, composed through the extension
        intro i n hr
        have hi : i < t.length := lt_of_read_some t i n hr
        by_cases hin : i = nid
        · have hn : n = node := by
            rw [hin] at hr
            rw [hread] at hr
            exact (Option.some.inj hr).symm
          obtain ⟨ext1, hr1, hext1⟩ := hpres1 nid
            ⟨node.char, node.is_terminal, node.values, node.children ++ [(c, t.length)]⟩ hreadE
          refine ⟨(c, t.length) :: ext1, ?_, ?_⟩
          · rw [hin, hn]
            rw [hr1]
            simp
          · intro pr hpr
            rcases List.mem_cons.1 hpr with h1 | h1
            · rw [h1]
            · have := hext1 pr h1
              omega
        · have hrE : (extendChild t nid c node).read i = some n := by
            rw [hRE i, if_neg (by omega), if_neg hin]
            exact hr
          obtain ⟨ext1, hr1, hext1⟩ := hpres1 i n hrE
          refine ⟨ext1, hr1, ?_⟩
          intro pr hpr
          have := hext1 pr hpr
          omega
      · -- all records at or above the old length are fresh and empty
        intro i n hge hr
        by_cases hiL : i = t.length
        · obtain ⟨ext1, hr1, _⟩ := hpres1 t.length ⟨c, false, [], []⟩ hreadNew
          rw [hiL] at hr
          rw [hr1] at hr
          have hn := Option.some.inj hr
          rw [← hn]
          exact ⟨rfl, rfl⟩
        · exact hfresh1 i n (by omega) hr
      · -- the descent in the final state reaches `fin`
        obtain ⟨ext1, hr1, hext1⟩ := hpres1 nid
          ⟨node.char, node.is_terminal, node.values, node.children ++ [(c, t.length)]⟩ hreadE
        simp only [followFrom, hr1]
        rw [List.append_assoc]
        rw [findChild_append_none node.children _ c hfc]
        simp only [List.singleton_append, findChild, if_pos rfl]
        exact hfollow1
      · -- the old path did not exist
        intro fin0 h0
        simp only [followFrom, hread, hfc] at h0
        exact Option.noConfusion h0
    · -- found case
      have hcidlt : cid < t.length :=
        hwf.child_lt nid node (c, cid) hread (findChild_mem _ _ _ hfc)
      obtain ⟨t1, fin, hloop, hwf1, hlen1, hfin1, hpres1, hfresh1, hfollow1, hexist1⟩ :=
        insertLoop_spec rest t cid hwf hcidlt
      refine ⟨t1, fin, ?_, hwf1, hlen1, hfin1, hpres1, hfresh1, ?_, ?_⟩
      · show (match find_or_create_child t nid c with
          | none => none
          | some (t2, nid1) => insertLoop t2 nid1 rest) = some (t1, fin)
        rw [find_or_create_found t nid c node hread cid hfc]
        exact hloop
      · obtain ⟨ext1, hr1, _⟩ := hpres1 nid node hread
        simp only [followFrom, hr1]
        rw [findChild_append_left node.children ext1 c cid hfc]
        exact hfollow1
      · intro fin0 h0
        simp only [followFrom, hread, hfc] at h0
        exact hexist1 fin0 h0


/-! ## Value-list update lemmas -/

theorem updateVals_nodup (vs : List Nat) (v : Nat) (h : vs.Nodup) : (updateVals vs v).Nodup := by
  unfold updateVals
  by_cases h1 : v ∈ vs
  · rw [if_pos h1]
    exact h
  · rw [if_neg h1]
    by_cases h2 : vs.length < MAX_VALUES
    · rw [if_pos h2]
      simp [List.nodup_append, h, h1]
    · rw [if_neg h2]
      exact h

theorem updateVals_le (vs : List Nat) (v : Nat) (h : vs.length ≤ MAX_VALUES) :
    (updateVals vs v).length ≤ MAX_VALUES := by
  unfold updateVals
  by_cases h1 : v ∈ vs
  · rw [if_pos h1]
    exact h
  · rw [if_neg h1]
    by_cases h2 : vs.length < MAX_VALUES
    · rw [if_pos h2]
      simp only [List.length_append, List.length_singleton]
      omega
    · rw [if_neg h2]
      exact h

theorem mem_updateVals (vs : List Nat) (v : Nat)
    (h : v ∈ vs ∨ vs.length < MAX_VALUES) : v ∈ updateVals vs v := by
  unfold updateVals
  by_cases h1 : v ∈ vs
  · rw [if_pos h1]
    exact h1
  · rw [if_neg h1]
    rcases h with h | h
    · exact absurd h h1
    · rw [if_pos h]
      simp

theorem updateVals_updateVals (vs : List Nat) (v : Nat) :
    updateVals (updateVals vs v) v = updateVals vs v := by
  unfold updateVals
  by_cases h1 : v ∈ vs
  · simp [h1]
  · by_cases h2 : vs.length < MAX_VALUES
    · simp [h1, h2]
    · simp [h1, h2]

/-! ## The terminal write of `insert` -/

theorem set_read_self : ∀ (t : Trie) (m : Nat) (n : Node), t[m]? = some n → t.set m n = t
  | [], m, n, h => by simp at h
  | a :: rest, 0, n, h => by
    simp at h
    rw [List.set_cons_zero, h]
  | a :: rest, m + 1, n, h => by
    simp at h
    rw [List.set_cons_succ, set_read_self rest m n h]

theorem write_read_self (t : Trie) (m : Nat) (n : Node) (h : t.read m = some n) :
    t.write m n = t := by
  have hm : m < t.length := lt_of_read_some t m n h
  rw [Trie.write, if_pos hm, set_read_self t m n h]

theorem followFrom_write_same_children (t : Trie) (m : Nat) (nd nd2 : Node)
    (hread : t.read m = some nd) (hch : nd2.children = nd.children) :
    ∀ (kb : List Nat) (s : Nat), followFrom (t.write m nd2) s kb = followFrom t s kb := by
  have hm : m < t.length := lt_of_read_some t m nd hread
  intro kb
  induction kb with
  | nil => intro s; rfl
  | cons c rest ih =>
    intro s
    simp only [followFrom]
    rw [read_write_lt t m nd2 hm s]
    by_cases hs : m = s
    · rw [if_pos hs, ← hs, hread]
      simp only [hch]
      rcases hf : findChild nd.children c with _ | cid
      · simp only [hf]
      · simp only [hf]
        exact ih cid
    · rw [if_neg hs]
      rcases hr2 : t.read s with _ | ns
      · rfl
      · rcases hf : findChild ns.children c with _ | cid
        · simp only [hf]
        · simp only [hf]
          exact ih cid

theorem wf_write_terminal (t : Trie) (m : Nat) (nd : Node) (v : Nat)
    (hwf : WF t) (hread : t.read m = some nd) :
    WF (t.write m ⟨nd.char, true, updateVals nd.values v, nd.children⟩) := by
  have hm : m < t.length := lt_of_read_some t m nd hread
  have hlen : (t.write m ⟨nd.char, true, updateVals nd.values v, nd.children⟩).length = t.length :=
    write_length_lt t m _ hm
  have hR := read_write_lt t m ⟨nd.char, true, updateVals nd.values v, nd.children⟩ hm
  have hedge : ∀ i n pr, (t.write m ⟨nd.char, true, updateVals nd.values v, nd.children⟩).read i =
      some n → pr ∈ n.children → ∃ n0, t.read i = some n0 ∧ pr ∈ n0.children := by
    intro i n pr hr hpr
    rw [hR i] at hr
    by_cases hmi : m = i
    · rw [if_pos hmi] at hr
      rcases hr
      exact ⟨nd, hmi ▸ hread, hpr⟩
    · rw [if_neg hmi] at hr
      exact ⟨n, hr, hpr⟩
  constructor
  case pos => omega
  case child_lt =>
    intro i n pr hr hpr
    obtain ⟨n0, hr0, hm0⟩ := hedge i n pr hr hpr
    rw [hlen]
    exact hwf.child_lt i n0 pr hr0 hm0
  case child_gt =>
    intro i n pr hr hpr
    obtain ⟨n0, hr0, hm0⟩ := hedge i n pr hr hpr
    exact hwf.child_gt i n0 pr hr0 hm0
  case bytes_nodup =>
    intro i n hr
    rw [hR i] at hr
    by_cases hmi : m = i
    · rw [if_pos hmi] at hr
      rcases hr
      exact hwf.bytes_nodup m nd hread
    · rw [if_neg hmi] at hr
      exact hwf.bytes_nodup i n hr
  case vals_nodup =>
    intro i n hr
    rw [hR i] at hr
    by_cases hmi : m = i
    · rw [if_pos hmi] at hr
      rcases hr
      exact updateVals_nodup nd.values v (hwf.vals_nodup m nd hread)
    · rw [if_neg hmi] at hr
      exact hwf.vals_nodup i n hr
  case vals_le =>
    intro i n hr
    rw [hR i] at hr
    by_cases hmi : m = i
    · rw [if_pos hmi] at hr
      rcases hr
      exact updateVals_le nd.values v (hwf.vals_le m nd hread)
    · rw [if_neg hmi] at hr
      exact hwf.vals_le i n hr
  case nonterm_nil =>
    intro i n hr ht
    rw [hR i] at hr
    by_cases hmi : m = i
    · rw [if_pos hmi] at hr
      rcases hr
      exact absurd ht (by simp)
    · rw [if_neg hmi] at hr
      exact hwf.nonterm_nil i n hr ht
  case indeg =>
    intro i1 n1 pr1 i2 n2 pr2 hr1 hpr1 hr2 hpr2 heq
    obtain ⟨m1, hrm1, hmm1⟩ := hedge i1 n1 pr1 hr1 hpr1
    obtain ⟨m2, hrm2, hmm2⟩ := hedge i2 n2 pr2 hr2 hpr2
    exact hwf.indeg i1 m1 pr1 i2 m2 pr2 hrm1 hmm1 hrm2 hmm2 heq

/-! ## Path preservation and injectivity -/

/-- Paths that exist before an insert still exist, and reach the same node,
after any state change that only appends fresh-target edges. -/
theorem followFrom_pres (t t1 : Trie) (hwf : WF t)
    (hpres : ∀ i n, t.read i = some n → ∃ ext, t1.read i =
      some ⟨n.char, n.is_terminal, n.values, n.children ++ ext⟩ ∧ (∀ pr ∈ ext, t.length ≤ pr.2)) :
    ∀ (kb : List Nat) (m r : Nat), m < t.length → followFrom t m kb = some r →
      followFrom t1 m kb = some r := by
  intro kb
  induction kb with
  | nil => intro m r _ h; exact h
  | cons c rest ih =>
    intro m r hm h
    simp only [followFrom] at h ⊢
    rcases hn : t.read m with _ | n
    · rw [hn] at h
      exact Option.noConfusion h
    · rw [hn] at h
      obtain ⟨ext, hn1, _⟩ := hpres m n hn
      rw [hn1]
      rcases hf : findChild n.children c with _ | cid
      · simp only [hf] at h
        exact Option.noConfusion h
      · simp only [hf] at h
        simp only [findChild_append_left n.children ext c cid hf]
        have hcid : cid < t.length := hwf.child_lt m n (c, cid) hn (findChild_mem _ _ _ hf)
        exact ih cid r hcid h

/-- A path in the extended state that ends below the old length already
existed: new edges only lead to fresh identifiers, and from a fresh node all
reachable nodes are fresh. -/
theorem followFrom_old (t t1 : Trie) (hwf : WF t) (hwf1 : WF t1)
    (hpres : ∀ i n, t.read i = some n → ∃ ext, t1.read i =
      some ⟨n.char, n.is_terminal, n.values, n.children ++ ext⟩ ∧ (∀ pr ∈ ext, t.length ≤ pr.2)) :
    ∀ (kb : List Nat) (m r : Nat), m < t.length → followFrom t1 m kb = some r →
      r < t.length → followFrom t m kb = some r := by
  intro kb
  induction kb with
  | nil => intro m r _ h _; exact h
  | cons c rest ih =>
    intro m r hm h hr
    obtain ⟨n, hn⟩ := read_some_of_lt t m hm
    obtain ⟨ext, hn1, hext⟩ := hpres m n hn
    simp only [followFrom, hn1] at h
    simp only [followFrom, hn]
    rcases hf : findChild (n.children ++ ext) c with _ | cid
    · simp only [hf] at h
      exact Option.noConfusion h
    · simp only [hf] at h
      rcases findChild_append_cases n.children ext c cid hf with hcase | ⟨_, hcase⟩
      · have hcidlt : cid < t.length := hwf.child_lt m n (c, cid) hn (findChild_mem _ _ _ hcase)
        simp only [hcase]
        exact ih cid r hcidlt h hr
      · exfalso
        have hge : t.length ≤ cid := hext (c, cid) (findChild_mem _ _ _ hcase)
        have := followFrom_le t1 hwf1 rest cid r h
        omega

theorem followFrom_concat (t : Trie) (k : List Nat) (c : Nat) (r : Nat) :
    followFrom t 0 (k ++ [c]) = some r ↔
      ∃ m n, followFrom t 0 k = some m ∧ t.read m = some n ∧
        findChild n.children c = some r := by
  rw [followFrom_append]
  rcases hm : followFrom t 0 k with _ | m
  · constructor
    · intro h
      exact Option.noConfusion h
    · rintro ⟨m, n, hm2, _, _⟩
      exact Option.noConfusion hm2
  · constructor
    · intro h
      simp only [followFrom] at h
      rcases hn : t.read m with _ | n
      · rw [hn] at h
        exact Option.noConfusion h
      · rw [hn] at h
        rcases hf : findChild n.children c with _ | cid
        · simp only [hf] at h
          exact Option.noConfusion h
        · simp only [hf] at h
          exact ⟨m, n, rfl, hn, by rw [hf, Option.some.inj h]⟩
    · rintro ⟨m2, n, hm2, hn, hf⟩
      have hmm : m2 = m := (Option.some.inj hm2).symm
      subst hmm
      simp only [followFrom, hn, hf]

/-- In a well-formed state the node graph is a tree rooted at 0: a node is
reached by at most one byte path. -/
theorem followFrom_inj (t : Trie) (hwf : WF t) :
    ∀ (k1 k2 : List Nat) (r : Nat),
      followFrom t 0 k1 = some r → followFrom t 0 k2 = some r → k1 = k2 := by
  intro k1
  induction k1 using List.reverseRecOn with
  | nil =>
    intro k2 r h1 h2
    have hr : r = 0 := (Option.some.inj h1).symm
    subst hr
    rcases List.eq_nil_or_concat k2 with h | ⟨k2p, c2, hk2⟩
    · rw [h]
    · exfalso
      subst hk2
      rw [List.concat_eq_append] at h2
      rcases (followFrom_concat t k2p c2 0).1 h2 with ⟨m, n, _, hn, hf⟩
      have := hwf.child_gt m n (c2, 0) hn (findChild_mem _ _ _ hf)
      omega
  | append_singleton k1p c1 ih =>
    intro k2 r h1 h2
    rcases (followFrom_concat t k1p c1 r).1 h1 with ⟨m1, n1, hm1, hn1, hf1⟩
    rcases List.eq_nil_or_concat k2 with h | ⟨k2p, c2, hk2⟩
    · exfalso
      subst h
      have hr : r = 0 := (Option.some.inj h2).symm
      subst hr
      have := hwf.child_gt m1 n1 (c1, 0) hn1 (findChild_mem _ _ _ hf1)
      omega
    · subst hk2
      rw [List.concat_eq_append] at h2 ⊢
      rcases (followFrom_concat t k2p c2 r).1 h2 with ⟨m2, n2, hm2, hn2, hf2⟩
      obtain ⟨hm12, hc12⟩ := hwf.indeg m1 n1 (c1, r) m2 n2 (c2, r) hn1
        (findChild_mem _ _ _ hf1) hn2 (findChild_mem _ _ _ hf2) rfl
      simp only at hc12
      rw [← hm12] at hm2
      rw [ih k2p m1 hm1 hm2, hc12]


/-! ## Key-level accessors -/

/-- The value list the store associates with a byte key: the values of the
node its path descends to, `[]` when the path is absent. -/
def valsB (t : Trie) (kb : List Nat) : List Nat :=
  match followFrom t 0 kb with
  | none => []
  | some nid =>
    match t.read nid with
    | none => []
    | some n => n.values

/-- The terminal flag at the node a byte key descends to, `false` when the
path is absent. -/
def termB (t : Trie) (kb : List Nat) : Bool :=
  match followFrom t 0 kb with
  | none => false
  | some nid =>
    match t.read nid with
    | none => false
    | some n => n.is_terminal

theorem valsB_eq (t : Trie) (kb : List Nat) (nid : Nat) (n : Node)
    (h1 : followFrom t 0 kb = some nid) (h2 : t.read nid = some n) :
    valsB t kb = n.values := by
  unfold valsB
  simp only [h1, h2]

theorem valsB_none (t : Trie) (kb : List Nat) (h : followFrom t 0 kb = none) :
    valsB t kb = [] := by
  unfold valsB
  simp only [h]

theorem termB_eq (t : Trie) (kb : List Nat) (nid : Nat) (n : Node)
    (h1 : followFrom t 0 kb = some nid) (h2 : t.read nid = some n) :
    termB t kb = n.is_terminal := by
  unfold termB
  simp only [h1, h2]

theorem termB_none (t : Trie) (kb : List Nat) (h : followFrom t 0 kb = none) :
    termB t kb = false := by
  unfold termB
  simp only [h]

/-! ## The `insert` specification -/

/-- Full characterisation of one `insert` on a well-formed state: it
succeeds, preserves the invariant, marks the key terminal with its value
list updated by `updateVals`, allocates nothing for the empty key, preserves
every existing path, leaves the values and terminal flag of every other key
unchanged, and is a no-op on the state when the key is already terminal and
the update does not change its values. -/
theorem insert_spec (t : Trie) (kb : List Nat) (v : Nat) (hwf : WF t) :
    ∃ t2 fin,
      insertB t kb v = some t2 ∧
      WF t2 ∧
      t.length ≤ t2.length ∧
      (kb = [] → t2.length = t.length) ∧
      followFrom t2 0 kb = some fin ∧
      valsB t2 kb = updateVals (valsB t kb) v ∧
      termB t2 kb = true ∧
      (∀ kb2 m, followFrom t 0 kb2 = some m → followFrom t2 0 kb2 = some m) ∧
      (∀ kb2, kb2 ≠ kb → valsB t2 kb2 = valsB t kb2 ∧ termB t2 kb2 = termB t kb2) ∧
      (∀ fin0 n0, followFrom t 0 kb = some fin0 → t.read fin0 = some n0 →
        n0.is_terminal = true → updateVals n0.values v = n0.values → t2 = t) := by
  obtain ⟨t1, fin, hloop, hwf1, hlen1, hfin1, hpres1, hfresh1, hfollow1, hexist1⟩ :=
    insertLoop_spec kb t 0 hwf hwf.pos
  obtain ⟨ndF, hndF⟩ := read_some_of_lt t1 fin hfin1
  have hins : insertB t kb v =
      some (t1.write fin ⟨ndF.char, true, updateVals ndF.values v, ndF.children⟩) := by
    unfold insertB
    simp only [hloop, hndF]
  have hwf2 : WF (t1.write fin ⟨ndF.char, true, updateVals ndF.values v, ndF.children⟩) :=
    wf_write_terminal t1 fin ndF v hwf1 hndF
  have hlen2 : (t1.write fin ⟨ndF.char, true, updateVals ndF.values v, ndF.children⟩).length =
      t1.length := write_length_lt t1 fin _ hfin1
  have hfollow2 : ∀ (kb2 : List Nat) (s : Nat),
      followFrom (t1.write fin ⟨ndF.char, true, updateVals ndF.values v, ndF.children⟩) s kb2 =
        followFrom t1 s kb2 :=
    fun kb2 s => followFrom_write_same_children t1 fin ndF
      ⟨ndF.char, true, updateVals ndF.values v, ndF.children⟩ hndF rfl kb2 s
  have hread2 : ∀ i, (t1.write fin ⟨ndF.char, true, updateVals ndF.values v, ndF.children⟩).read i =
      if fin = i then some ⟨ndF.char, true, updateVals ndF.values v, ndF.children⟩
      else t1.read i :=
    fun i => read_write_lt t1 fin _ hfin1 i
  have hfinval : ndF.values = valsB t kb ∧ (followFrom t 0 kb = none → t.length ≤ fin) := by
    rcases hext : followFrom t 0 kb with _ | fin0
    · have hge : t.length ≤ fin := by
        by_contra hcon
        have := followFrom_old t t1 hwf hwf1 hpres1 kb 0 fin hwf.pos hfollow1 (by omega)
        rw [hext] at this
        exact Option.noConfusion this
      have hfr := hfresh1 fin ndF hge hndF
      rw [valsB_none t kb hext, hfr.2]
      exact ⟨rfl, fun _ => hge⟩
    · obtain ⟨ht1t, hfin0⟩ := hexist1 fin0 hext
      have hndF2 : t.read fin0 = some ndF := by
        rw [← ht1t, ← hfin0]
        exact hndF
      rw [valsB_eq t kb fin0 ndF hext hndF2]
      exact ⟨rfl, fun hcon => Option.noConfusion hcon⟩
  refine ⟨t1.write fin ⟨ndF.char, true, updateVals ndF.values v, ndF.children⟩, fin,
    hins, hwf2, by omega, ?_, ?_, ?_, ?_, ?_, ?_, ?_⟩
  · -- empty key allocates nothing
    intro hkb
    subst hkb
    have h0 : (some (t, 0) : Option (Trie × Nat)) = some (t1, fin) := hloop
    have h1 := Option.some.inj h0
    have ht1 : t1 = t := (congrArg Prod.fst h1).symm
    rw [hlen2, ht1]
  · -- the key's path exists in the result
    rw [hfollow2 kb 0]
    exact hfollow1
  · -- values at the key
    rw [valsB_eq _ kb fin ⟨ndF.char, true, updateVals ndF.values v, ndF.children⟩
      (by rw [hfollow2 kb 0]; exact hfollow1) (by rw [hread2 fin, if_pos rfl])]
    rw [hfinval.1]
  · -- the key is terminal
    rw [termB_eq _ kb fin ⟨ndF.char, true, updateVals ndF.values v, ndF.children⟩
      (by rw [hfollow2 kb 0]; exact hfollow1) (by rw [hread2 fin, if_pos rfl])]
  · -- path preservation
    intro kb2 m hm
    have hmlt : m < t.length := followFrom_lt t hwf kb2 0 m hwf.pos hm
    rw [hfollow2 kb2 0]
    exact followFrom_pres t t1 hwf hpres1 kb2 0 m hwf.pos hm
  · -- frame: other keys keep their values and flag
    intro kb2 hne
    have hmfin : ∀ m, followFrom t 0 kb2 = some m → m ≠ fin := by
      intro m hm hcon
      rcases hext : followFrom t 0 kb with _ | fin0
      · have hge := hfinval.2 hext
        have hmlt : m < t.length := followFrom_lt t hwf kb2 0 m hwf.pos hm
        omega
      · obtain ⟨_, hfin0⟩ := hexist1 fin0 hext
        subst hfin0
        subst hcon
        exact hne (followFrom_inj t hwf kb2 kb m hm hext)
    rcases h2 : followFrom t 0 kb2 with _ | m
    · -- absent before the insert
      rcases h2p : followFrom
          (t1.write fin ⟨ndF.char, true, updateVals ndF.values v, ndF.children⟩) 0 kb2 with _ | r
      · rw [valsB_none _ kb2 h2p, termB_none _ kb2 h2p,
          valsB_none t kb2 h2, termB_none t kb2 h2]
        exact ⟨rfl, rfl⟩
      · have hr1 : followFrom t1 0 kb2 = some r := by
          rw [← hfollow2 kb2 0]
          exact h2p
        have hrge : t.length ≤ r := by
          by_contra hcon
          have := followFrom_old t t1 hwf hwf1 hpres1 kb2 0 r hwf.pos hr1 (by omega)
          rw [h2] at this
          exact Option.noConfusion this
        have hrfin : r ≠ fin := by
          intro hcon
          subst hcon
          apply hne
          refine followFrom_inj _ hwf2 kb2 kb r h2p ?_
          rw [hfollow2 kb 0]
          exact hfollow1
        obtain ⟨nr, hnr⟩ := read_some_of_lt t1 r
          (followFrom_lt t1 hwf1 kb2 0 r (by omega) hr1)
        have hfr := hfresh1 r nr hrge hnr
        have hnr2 : (t1.write fin ⟨ndF.char, true, updateVals ndF.values v,
            ndF.children⟩).read r = some nr := by
          rw [hread2 r, if_neg (fun hh => hrfin hh.symm)]
          exact hnr
        rw [valsB_eq _ kb2 r nr h2p hnr2, termB_eq _ kb2 r nr h2p hnr2,
          valsB_none t kb2 h2, termB_none t kb2 h2, hfr.1, hfr.2]
        exact ⟨rfl, rfl⟩
    · -- present before the insert
      have hmlt : m < t.length := followFrom_lt t hwf kb2 0 m hwf.pos h2
      obtain ⟨n0, hn0⟩ := read_some_of_lt t m hmlt
      obtain ⟨ext, hn1, _⟩ := hpres1 m n0 hn0
      have hm1 : followFrom t1 0 kb2 = some m :=
        followFrom_pres t t1 hwf hpres1 kb2 0 m hwf.pos h2
      have hm2 : followFrom
          (t1.write fin ⟨ndF.char, true, updateVals ndF.values v, ndF.children⟩) 0 kb2 =
          some m := by
        rw [hfollow2 kb2 0]
        exact hm1
      have hmf : m ≠ fin := hmfin m h2
      have hn2 : (t1.write fin ⟨ndF.char, true, updateVals ndF.values v,
          ndF.children⟩).read m = some ⟨n0.char, n0.is_terminal, n0.values,
          n0.children ++ ext⟩ := by
        rw [hread2 m, if_neg (fun hh => hmf hh.symm)]
        exact hn1
      rw [valsB_eq _ kb2 m _ hm2 hn2, termB_eq _ kb2 m _ hm2 hn2,
        valsB_eq t kb2 m n0 h2 hn0, termB_eq t kb2 m n0 h2 hn0]
      exact ⟨rfl, rfl⟩
  · -- no-op when already recorded
    intro fin0 n0 hf0 hr0 hterm hupd
    obtain ⟨ht1t, hfin0⟩ := hexist1 fin0 hf0
    have hndF2 : t.read fin0 = some ndF := by
      rw [← ht1t, ← hfin0]
      exact hndF
    have hnd : ndF = n0 := by
      rw [hr0] at hndF2
      exact (Option.some.inj hndF2).symm
    have hndF3 : t.read fin0 = some ndF := by
      rw [hnd]
      exact hr0
    have hnode : (⟨ndF.char, true, updateVals ndF.values v, ndF.children⟩ : Node) = ndF := by
      rw [hnd, hupd, ← hterm]
    rw [hnode, ht1t, hfin0]
    exact write_read_self t fin0 ndF hndF3


/-! ## `lookup` against the descent relation -/

/-- Modelled from the spec (§4.3 `lookup`): descend byte-by-byte from the
root; if any byte has no matching child edge the result is empty; if the
whole key is consumed, the result is the reached node's value list when that
node is terminal and empty otherwise.  This is the specification-side
counterpart compared with the code-side `lookupB` in claim C6. -/
def lookupSpec (t : Trie) (kb : List Nat) : List Nat :=
  match followFrom t 0 kb with
  | none => []
  | some nid =>
    match t.read nid with
    | none => []
    | some n => if n.is_terminal then n.values else []

theorem lookupB_eq_spec (t : Trie) (hwf : WF t) (kb : List Nat) :
    lookupB t kb = some (lookupSpec t kb) := by
  unfold lookupB lookupSpec
  rw [descend_eq t hwf kb 0 hwf.pos]
  rcases hfo : followFrom t 0 kb with _ | nid
  · rfl
  · have hlt : nid < t.length := followFrom_lt t hwf kb 0 nid hwf.pos hfo
    obtain ⟨n, hn⟩ := read_some_of_lt t nid hlt
    simp only [hn]

theorem lookupB_term (t : Trie) (hwf : WF t) (kb : List Nat) (htm : termB t kb = true) :
    lookupB t kb = some (valsB t kb) := by
  rw [lookupB_eq_spec t hwf kb]
  unfold lookupSpec
  rcases hfo : followFrom t 0 kb with _ | nid
  · rw [termB_none t kb hfo] at htm
    exact Bool.noConfusion htm
  · rcases hn : t.read nid with _ | n
    · unfold valsB
      simp only [hfo, hn]
    · rw [termB_eq t kb nid n hfo hn] at htm
      rw [valsB_eq t kb nid n hfo hn]
      simp only [hn, htm, if_true]

theorem valsB_nodup (t : Trie) (hwf : WF t) (kb : List Nat) : (valsB t kb).Nodup := by
  unfold valsB
  rcases hfo : followFrom t 0 kb with _ | nid
  · simp
  · rcases hn : t.read nid with _ | n
    · simp only [hn]
      exact List.nodup_nil
    · simp only [hn]
      exact hwf.vals_nodup nid n hn

/-! ## More `updateVals` facts -/

theorem updateVals_mem_mono (vs : List Nat) (v a : Nat) (h : a ∈ vs) : a ∈ updateVals vs v := by
  unfold updateVals
  by_cases h1 : v ∈ vs
  · rw [if_pos h1]
    exact h
  · rw [if_neg h1]
    by_cases h2 : vs.length < MAX_VALUES
    · rw [if_pos h2]
      exact List.mem_append_left _ h
    · rw [if_neg h2]
      exact h

theorem updateVals_length_le_succ (vs : List Nat) (v : Nat) :
    (updateVals vs v).length ≤ vs.length + 1 := by
  unfold updateVals
  by_cases h1 : v ∈ vs
  · rw [if_pos h1]
    omega
  · rw [if_neg h1]
    by_cases h2 : vs.length < MAX_VALUES
    · rw [if_pos h2]
      simp
    · rw [if_neg h2]
      omega

theorem updateVals_append (vs : List Nat) (v : Nat) (h1 : v ∉ vs)
    (h2 : vs.length < MAX_VALUES) : updateVals vs v = vs ++ [v] := by
  unfold updateVals
  rw [if_neg h1, if_pos h2]

theorem updateVals_of_full (vs : List Nat) (v : Nat) (h : MAX_VALUES ≤ vs.length) :
    updateVals vs v = vs := by
  unfold updateVals
  by_cases h1 : v ∈ vs
  · rw [if_pos h1]
  · rw [if_neg h1, if_neg (by omega)]

/-- Folding `updateVals` over duplicate-free values keeps the first
`MAX_VALUES` values beyond the accumulator and drops the rest. -/
theorem foldl_updateVals_take : ∀ (vs acc : List Nat), (acc ++ vs).Nodup →
    vs.foldl updateVals acc = acc ++ vs.take (MAX_VALUES - acc.length)
  | [], acc, _ => by simp
  | v :: rest, acc, hnd => by
    have hv : v ∉ acc := by
      rcases List.nodup_append.1 hnd with ⟨_, _, hdisj⟩
      intro hcon
      exact hdisj hcon (List.mem_cons_self v rest)
    by_cases hlen : acc.length < MAX_VALUES
    · have hstep : updateVals acc v = acc ++ [v] := updateVals_append acc v hv hlen
      have hnd2 : ((acc ++ [v]) ++ rest).Nodup := by
        have : (acc ++ [v]) ++ rest = acc ++ (v :: rest) := by simp
        rw [this]
        exact hnd
      show List.foldl updateVals (updateVals acc v) rest = _
      rw [hstep, foldl_updateVals_take rest (acc ++ [v]) hnd2]
      have ht : (v :: rest).take (MAX_VALUES - acc.length) =
          v :: rest.take (MAX_VALUES - (acc ++ [v]).length) := by
        have h1 : MAX_VALUES - acc.length = (MAX_VALUES - (acc ++ [v]).length) + 1 := by
          simp only [List.length_append, List.length_singleton]
          omega
        rw [h1]
        rfl
      rw [ht]
      simp
    · have hfull : ∀ (ws : List Nat) (bs : List Nat), MAX_VALUES ≤ bs.length →
          ws.foldl updateVals bs = bs := by
        intro ws
        induction ws with
        | nil => intro bs _; rfl
        | cons w wrest ih =>
          intro bs hbs
          show List.foldl updateVals (updateVals bs w) wrest = bs
          rw [updateVals_of_full bs w hbs]
          exact ih bs hbs
      show List.foldl updateVals (updateVals acc v) rest = _
      rw [updateVals_of_full acc v (by omega), hfull rest acc (by omega)]
      have : MAX_VALUES - acc.length = 0 := by omega
      rw [this]
      simp

/-! ## `insert` determinism helpers -/

theorem insertB_wf (t : Trie) (kb : List Nat) (v : Nat) (t2 : Trie)
    (hwf : WF t) (h : insertB t kb v = some t2) : WF t2 := by
  obtain ⟨t2x, fin, hins, hwf2, _⟩ := insert_spec t kb v hwf
  rw [h] at hins
  rw [Option.some.inj hins]
  exact hwf2

theorem insertManyB_wf : ∀ (pairs : List (List Nat × Nat)) (t t2 : Trie),
    WF t → insertManyB t pairs = some t2 → WF t2
  | [], t, t2, hwf, h => by
    rw [← Option.some.inj h]
    exact hwf
  | q :: rest, t, t2, hwf, h => by
    simp only [insertManyB] at h
    rcases hq : insertB t q.1 q.2 with _ | t1
    · rw [hq] at h
      exact Option.noConfusion h
    · rw [hq] at h
      exact insertManyB_wf rest t1 t2 (insertB_wf t q.1 q.2 t1 hwf hq) h


/-! ## Behaviour of a whole insert sequence -/

/-- Effect of folding a list of (key bytes, value) inserts: every key's value
list is the `updateVals`-fold of the values inserted under it, and a key is
terminal exactly when it was terminal before or appears in the sequence. -/
theorem insertManyB_spec : ∀ (pairs : List (List Nat × Nat)) (t : Trie), WF t →
    ∃ t2, insertManyB t pairs = some t2 ∧ WF t2 ∧
      (∀ kb, valsB t2 kb =
        ((pairs.filter (fun q => q.1 = kb)).map Prod.snd).foldl updateVals (valsB t kb)) ∧
      (∀ kb, termB t2 kb = true ↔ (termB t kb = true ∨ kb ∈ pairs.map Prod.fst))
  | [], t, hwf => ⟨t, rfl, hwf, by intro kb; simp, by intro kb; simp⟩
  | q :: rest, t, hwf => by
    obtain ⟨k0, v0⟩ := q
    obtain ⟨t1, fin, hins, hwf1, hle, hemp, hfol, hvals1, hterm1, hfpres, hframe1, hnoop⟩ :=
      insert_spec t k0 v0 hwf
    obtain ⟨t2, hins2, hwf2, hvals2, hterm2⟩ := insertManyB_spec rest t1 hwf1
    refine ⟨t2, ?_, hwf2, ?_, ?_⟩
    · simp only [insertManyB, hins]
      exact hins2
    · intro kb
      rw [hvals2 kb]
      by_cases hk : k0 = kb
      · subst hk
        rw [hvals1]
        simp only [List.filter_cons, decide_eq_true_eq]
        rw [if_pos (by simp)]
        simp only [List.map_cons, List.foldl_cons]
      · rw [(hframe1 kb (fun hh => hk hh.symm)).1]
        simp only [List.filter_cons]
        rw [if_neg (by simp [hk])]
    · intro kb
      rw [hterm2 kb]
      by_cases hk : k0 = kb
      · subst hk
        simp only [List.map_cons, List.mem_cons]
        constructor
        · intro _
          simp
        · intro _
          exact Or.inl hterm1
      · simp only [List.map_cons, List.mem_cons]
        rw [(hframe1 kb (fun hh => hk hh.symm)).2]
        constructor
        · rintro (h | h)
          · exact Or.inl h
          · exact Or.inr (Or.inr h)
        · rintro (h | h | h)
          · exact Or.inl h
          · exact absurd h.symm hk
          · exact Or.inr h

theorem read_initTrie_zero : (initTrie : Trie).read 0 = some ⟨0, false, [], []⟩ := rfl

theorem valsB_initTrie (kb : List Nat) : valsB initTrie kb = [] := by
  rcases kb with _ | ⟨c, rest⟩
  · rfl
  · unfold valsB
    simp only [followFrom, read_initTrie_zero, findChild]

theorem termB_initTrie (kb : List Nat) : termB initTrie kb = false := by
  rcases kb with _ | ⟨c, rest⟩
  · rfl
  · unfold termB
    simp only [followFrom, read_initTrie_zero, findChild]

theorem insertManyS_eq_insertManyB : ∀ (pairs : List (List Nat × Nat)) (t : Trie),
    insertManyS t pairs = insertManyB t (pairs.map (fun q => (utf8Encode q.1, q.2)))
  | [], _ => rfl
  | q :: rest, t => by
    simp only [insertManyS, insertManyB, List.map_cons, insertS]
    rcases insertB t (utf8Encode q.1) q.2 with _ | t1
    · rfl
    · exact insertManyS_eq_insertManyB rest t1

/-! ## Depth-first collection lemmas -/

theorem dfs_zero (t : Trie) (nid : Nat) (path : List Nat) : dfs t 0 nid path = none := rfl

theorem dfs_succ (t : Trie) (fuel nid : Nat) (path : List Nat) :
    dfs t (fuel + 1) nid path =
      match t.read nid with
      | none => none
      | some node =>
        match seqResults (node.children.map (fun pr => dfs t fuel pr.2 (path ++ [pr.1]))) with
        | none => none
        | some rs => some ((if node.is_terminal then [(path, node.values)] else []) ++ rs) := rfl

theorem seqResults_cons_none (rest : List (Option (List (List Nat × List Nat)))) :
    seqResults (none :: rest) = none := rfl

theorem seqResults_cons_some (x0 : List (List Nat × List Nat))
    (rest : List (Option (List (List Nat × List Nat)))) :
    seqResults (some x0 :: rest) =
      match seqResults rest with
      | none => none
      | some b => some (x0 ++ b) := rfl

theorem seqResults_all_some : ∀ (l : List (Option (List (List Nat × List Nat))))
    (res : List (List Nat × List Nat)),
    seqResults l = some res → ∀ o ∈ l, ∃ x, o = some x
  | [], _, _, o, ho => absurd ho (by simp)
  | o0 :: rest, res, h, o, ho => by
    rcases ho0 : o0 with _ | x0
    · rw [ho0, seqResults_cons_none] at h
      exact Option.noConfusion h
    · rcases hrest : seqResults rest with _ | xs
      · rw [ho0, seqResults_cons_some, hrest] at h
        exact Option.noConfusion h
      · rcases List.mem_cons.1 ho with h1 | h1
        · exact ⟨x0, by rw [h1, ho0]⟩
        · exact seqResults_all_some rest xs hrest o h1

theorem seqResults_ok : ∀ (l : List (Option (List (List Nat × List Nat)))),
    (∀ o ∈ l, ∃ x, o = some x) → ∃ res, seqResults l = some res
  | [], _ => ⟨[], rfl⟩
  | o0 :: rest, h => by
    obtain ⟨x0, hx0⟩ := h o0 (List.mem_cons_self _ _)
    obtain ⟨xs, hxs⟩ := seqResults_ok rest (fun o ho => h o (List.mem_cons_of_mem _ ho))
    exact ⟨x0 ++ xs, by rw [hx0, seqResults_cons_some, hxs]⟩

theorem seqResults_mem : ∀ (l : List (Option (List (List Nat × List Nat))))
    (res : List (List Nat × List Nat)), seqResults l = some res →
    ∀ (x : List (List Nat × List Nat)) (a : List Nat × List Nat),
      some x ∈ l → a ∈ x → a ∈ res
  | [], _, _, x, a, hx, _ => absurd hx (by simp)
  | o0 :: rest, res, h, x, a, hx, ha => by
    rcases ho0 : o0 with _ | x0
    · rw [ho0, seqResults_cons_none] at h
      exact Option.noConfusion h
    · rw [ho0, seqResults_cons_some] at h
      rcases hrest : seqResults rest with _ | xs
      · rw [hrest] at h
        exact Option.noConfusion h
      · rw [hrest] at h
        have hres : res = x0 ++ xs := (Option.some.inj h).symm
        subst hres
        rcases List.mem_cons.1 hx with h1 | h1
        · have hxx : x = x0 := by
            rw [ho0] at h1
            exact Option.some.inj h1
          subst hxx
          exact List.mem_append_left xs ha
        · exact List.mem_append_right x0 (seqResults_mem rest xs hrest x a h1 ha)

theorem dfs_ok (t : Trie) (hwf : WF t) : ∀ (fuel : Nat) (nid : Nat) (path : List Nat),
    nid < t.length → t.length - nid < fuel → ∃ res, dfs t fuel nid path = some res := by
  intro fuel
  induction fuel with
  | zero =>
    intro nid path h1 h2
    omega
  | succ f ih =>
    intro nid path h1 h2
    obtain ⟨node, hn⟩ := read_some_of_lt t nid h1
    have hchildren : ∀ o ∈ node.children.map (fun pr => dfs t f pr.2 (path ++ [pr.1])),
        ∃ x, o = some x := by
      intro o ho
      rcases List.mem_map.1 ho with ⟨pr, hpr, heq⟩
      have hlt : pr.2 < t.length := hwf.child_lt nid node pr hn hpr
      have hgt : nid < pr.2 := hwf.child_gt nid node pr hn hpr
      obtain ⟨x, hx⟩ := ih pr.2 (path ++ [pr.1]) hlt (by omega)
      exact ⟨x, by rw [← heq, hx]⟩
    obtain ⟨rs, hrs⟩ := seqResults_ok _ hchildren
    refine ⟨(if node.is_terminal then [(path, node.values)] else []) ++ rs, ?_⟩
    rw [dfs_succ]
    simp only [hn, hrs]

theorem dfs_mem (t : Trie) (hwf : WF t) : ∀ (rest : List Nat) (m : Nat) (path : List Nat)
    (fuel : Nat) (res : List (List Nat × List Nat)) (nid : Nat) (n : Node),
    followFrom t m rest = some nid → t.read nid = some n → n.is_terminal = true →
    dfs t fuel m path = some res → (path ++ rest, n.values) ∈ res := by
  intro rest
  induction rest with
  | nil =>
    intro m path fuel res nid n hfo hn hterm hdfs
    have hm : m = nid := Option.some.inj hfo
    subst hm
    rcases fuel with _ | f
    · rw [dfs_zero] at hdfs
      exact Option.noConfusion hdfs
    · rw [dfs_succ] at hdfs
      simp only [hn] at hdfs
      rcases hrs : seqResults (n.children.map fun pr => dfs t f pr.2 (path ++ [pr.1])) with _ | rs
      · rw [hrs] at hdfs
        exact Option.noConfusion hdfs
      · rw [hrs] at hdfs
        have hres : res = (if n.is_terminal then [(path, n.values)] else []) ++ rs :=
          (Option.some.inj hdfs).symm
        subst hres
        simp only [hterm, if_true, List.append_nil]
        exact List.mem_append_left rs (List.mem_cons_self _ _)
  | cons c restp ih =>
    intro m path fuel res nid n hfo hn hterm hdfs
    simp only [followFrom] at hfo
    rcases hm : t.read m with _ | nm
    · rw [hm] at hfo
      exact Option.noConfusion hfo
    · rw [hm] at hfo
      rcases hfc : findChild nm.children c with _ | cid
      · simp only [hfc] at hfo
        exact Option.noConfusion hfo
      · simp only [hfc] at hfo
        rcases fuel with _ | f
        · rw [dfs_zero] at hdfs
          exact Option.noConfusion hdfs
        · rw [dfs_succ] at hdfs
          simp only [hm] at hdfs
          rcases hrs : seqResults (nm.children.map fun pr => dfs t f pr.2 (path ++ [pr.1]))
            with _ | rs
          · rw [hrs] at hdfs
            exact Option.noConfusion hdfs
          · rw [hrs] at hdfs
            have hres : res = (if nm.is_terminal then [(path, nm.values)] else []) ++ rs :=
              (Option.some.inj hdfs).symm
            subst hres
            have hmem : dfs t f cid (path ++ [c]) ∈
                nm.children.map (fun pr => dfs t f pr.2 (path ++ [pr.1])) := by
              have hcc : (c, cid) ∈ nm.children := findChild_mem _ _ _ hfc
              exact List.mem_map.2 ⟨(c, cid), hcc, rfl⟩
            obtain ⟨x, hx⟩ := seqResults_all_some _ rs hrs _ hmem
            have hin : (path ++ [c] ++ restp, n.values) ∈ x :=
              ih cid (path ++ [c]) f x nid n hfo hn hterm hx
            have hinrs : (path ++ [c] ++ restp, n.values) ∈ rs :=
              seqResults_mem _ rs hrs x _ (hx ▸ hmem) hin
            refine List.mem_append_right _ ?_
            have hpp : path ++ c :: restp = path ++ [c] ++ restp := by simp
            rw [hpp]
            exact hinrs


/-! ## UTF-8 facts -/

theorem utf8Encode_nil : utf8Encode [] = [] := rfl

theorem utf8Encode_cons (c : Nat) (w : List Nat) :
    utf8Encode (c :: w) = utf8Char c ++ utf8Encode w := by
  unfold utf8Encode
  rw [List.map_cons, List.flatten_cons]

theorem utf8Encode_append (a b : List Nat) :
    utf8Encode (a ++ b) = utf8Encode a ++ utf8Encode b := by
  unfold utf8Encode
  rw [List.map_append, List.flatten_append]

theorem utf8Char_ascii (c : Nat) (h : c < 128) : utf8Char c = [c] := by
  unfold utf8Char
  rw [if_pos h]

theorem utf8Char_head_high (c : Nat) (h : ¬c < 128) :
    ∃ b bs, utf8Char c = b :: bs ∧ 128 ≤ b := by
  unfold utf8Char
  rw [if_neg h]
  by_cases h2 : c < 2048
  · rw [if_pos h2]
    exact ⟨_, _, rfl, by omega⟩
  · rw [if_neg h2]
    by_cases h3 : c < 65536
    · rw [if_pos h3]
      exact ⟨_, _, rfl, by omega⟩
    · rw [if_neg h3]
      exact ⟨_, _, rfl, by omega⟩

theorem utf8Encode_ascii : ∀ (w : List Nat), (∀ c ∈ w, c < 128) → utf8Encode w = w
  | [], _ => rfl
  | c :: rest, h => by
    rw [utf8Encode_cons, utf8Char_ascii c (h c (List.mem_cons_self _ _)),
      utf8Encode_ascii rest (fun x hx => h x (List.mem_cons_of_mem _ hx))]
    rfl

/-- UTF-8 encoding is injective on ASCII targets: if a string encodes to a
byte sequence consisting only of bytes below 128, the string IS that byte
sequence. -/
theorem utf8Encode_eq_ascii : ∀ (w k : List Nat), (∀ c ∈ k, c < 128) →
    utf8Encode w = k → w = k
  | [], k, _, he => by
    rw [← he]
    rfl
  | c :: rest, k, hk, he => by
    by_cases hc : c < 128
    · rw [utf8Encode_cons, utf8Char_ascii c hc] at he
      rcases k with _ | ⟨k0, kp⟩
      · exact List.noConfusion he
      · have h1 : c = k0 := (List.cons.inj he).1
        have h2 : utf8Encode rest = kp := (List.cons.inj he).2
        rw [utf8Encode_eq_ascii rest kp (fun x hx => hk x (List.mem_cons_of_mem _ hx)) h2, h1]
    · exfalso
      obtain ⟨b, bs, hsplit, hb⟩ := utf8Char_head_high c hc
      rw [utf8Encode_cons, hsplit] at he
      rcases k with _ | ⟨k0, kp⟩
      · exact List.noConfusion he
      · have h1 : b = k0 := (List.cons.inj he).1
        have := hk k0 (List.mem_cons_self _ _)
        omega

/-! ## Claims -/

/-- C9: `lookup` and `prefix_search` are read-only — threading the backing
file through every byte access, both operations return every byte of the
file (and hence its length) unchanged, whatever the file contents, key or
prefix. -/
theorem claim9_read_only (f kb p : List Nat) :
    (lookupSt f kb).1 = f ∧ (prefixSearchSt f p).1 = f :=
  ⟨lookupSt_fst f kb, prefixSearchSt_fst f p⟩

/-- C6: under the store invariant, `lookup` never fails and returns exactly
the specification value: descending byte-by-byte from the root, the empty
list when some byte has no matching child edge or the reached node is not
terminal, and the reached node's values when the whole key matches a
terminal node. -/
theorem claim6_lookup (t : Trie) (kb : List Nat) (hwf : WF t) :
    lookupB t kb = some (lookupSpec t kb) :=
  lookupB_eq_spec t hwf kb

/-- Witness for C6 at the initial store and the single-byte key 97. -/
theorem claim6_witness : lookupB initTrie [97] = some (lookupSpec initTrie [97]) :=
  claim6_lookup initTrie [97] wf_initTrie

/-- C2 (amended): `_read_node` performs no validation at all.  A read past
the end of the file returns `None` instead of failing, and any full
1024-byte record decodes successfully whatever its `valueCount` and
`childCount` bytes hold — no `CorruptRecord`/format failure exists. -/
theorem claim2_read_node_no_validation :
    (∀ (f : List Nat) (id : Nat), f.length ≤ id * NODE_SIZE →
      read_node_bytes f id = .ok none) ∧
    (∀ (f : List Nat) (id : Nat), (∀ b ∈ f, b < 256) →
      (id + 1) * NODE_SIZE ≤ f.length → ∃ n, read_node_bytes f id = .ok (some n)) :=
  ⟨read_node_bytes_past_end, read_node_bytes_full⟩

set_option maxRecDepth 8000 in
/-- Counterexample to C2 as stated: a record whose `valueCount` byte is 9
(exceeding 8) and one whose `childCount` byte is 65 (exceeding 64) both
decode without error. -/
theorem claim2_counterexample :
    read_node_bytes ((List.replicate 39 (0 : Nat)).set 2 9) 0 =
      .ok (some ⟨0, false, List.replicate 9 0, []⟩) ∧
    read_node_bytes ((List.replicate 231 (0 : Nat)).set 35 65) 0 =
      .ok (some ⟨0, false, [], List.replicate 65 (0, 0)⟩) ∧
    MAX_VALUES < 9 ∧ MAX_CHILDREN < 65 ∧ 39 < NODE_SIZE :=
  ⟨rfl, rfl, by decide, by decide, by decide⟩

/-- Witness for C2 (amended) on a one-record file of zero bytes. -/
theorem claim2_witness :
    (read_node_bytes (List.replicate 1024 (0 : Nat)) 1 = .ok none) ∧
    (∃ n, read_node_bytes (List.replicate 1024 (0 : Nat)) 0 = .ok (some n)) :=
  ⟨claim2_read_node_no_validation.1 (List.replicate 1024 0) 1
     (by rw [List.length_replicate]; decide),
   claim2_read_node_no_validation.2 (List.replicate 1024 0) 0
     (fun b hb => by rw [List.eq_of_mem_replicate hb]; decide)
     (by rw [List.length_replicate]; decide)⟩

/-- C7: node-identifier overflow is fatal rather than wrapping.  The creation
branch of `_find_or_create_child` stores the freshly allocated identifier
itself as the new edge's target, and at the byte level `_write_node` fails
the whole write when any stored child identifier needs more than 16 bits,
while every identifier below 65536 is stored and read back exactly — so no
child-table entry is ever written whose stored id differs from the allocated
node id. -/
theorem claim7_no_id_truncation :
    (∀ (t : Trie) (pid c : Nat) (node : Node), t.read pid = some node →
      findChild node.children c = none →
      find_or_create_child t pid c = some (extendChild t pid c node, t.length)) ∧
    (∀ (file : List Nat) (id ch : Nat) (tm : Bool) (vals : List Nat)
      (children : List (Nat × Nat)) (pr : Nat × Nat), pr ∈ children → 2 ^ 16 ≤ pr.2 →
      write_node_bytes file id ch tm vals children = .error ()) ∧
    (∀ (file : List Nat) (id ch : Nat) (tm : Bool) (vals : List Nat)
      (children : List (Nat × Nat)), ch < 256 → (∀ v ∈ vals, v < 2 ^ 32) →
      vals.length ≤ MAX_VALUES → (∀ pr ∈ children, pr.1 < 256) →
      (∀ pr ∈ children, pr.2 < 2 ^ 16) → children.length ≤ 255 →
      ∃ f1, write_node_bytes file id ch tm vals children = .ok f1 ∧
        read_node_bytes f1 id = .ok (some ⟨ch, tm, vals, children⟩)) :=
  ⟨find_or_create_create, write_node_bytes_id_overflow, read_write_node_bytes⟩

/-- Witness for C7: creating the edge for byte 97 at the root allocates
identifier 1 and stores exactly that identifier; writing a child id of 65536
fails, while 65535 round-trips. -/
theorem claim7_witness :
    (find_or_create_child initTrie 0 97 =
      some (extendChild initTrie 0 97 ⟨0, false, [], []⟩, initTrie.length)) ∧
    (write_node_bytes [] 0 0 false [] [(97, 65536)] = .error ()) ∧
    (∃ f1, write_node_bytes [] 0 97 true [5] [(98, 65535)] = .ok f1 ∧
      read_node_bytes f1 0 = .ok (some ⟨97, true, [5], [(98, 65535)]⟩)) :=
  ⟨claim7_no_id_truncation.1 initTrie 0 97 ⟨0, false, [], []⟩ rfl rfl,
   claim7_no_id_truncation.2.1 [] 0 0 false [] [(97, 65536)] (97, 65536)
     (List.mem_singleton.2 rfl) (by decide),
   claim7_no_id_truncation.2.2 [] 0 97 true [5] [(98, 65535)] (by decide) (by decide)
     (by decide) (by decide) (by decide) (by decide)⟩

/-- Keys 0..64 as 65 distinct single-byte keys, all mapping to value 0. -/
def keys65 : List (List Nat × Nat) := (List.range 65).map (fun i => ([i], 0))

/-- Child count of the root record of a possibly-failed store. -/
def rootChildCount (o : Option Trie) : Option Nat :=
  match o with
  | none => none
  | some t => (t.read 0).map (fun n => n.children.length)

set_option maxRecDepth 8000 in
/-- Counterexample to C3 as stated: inserting 65 distinct single-byte keys
gives the root 65 child entries — the 64-entry cap is never enforced — and
the 65th key is reachable rather than silently dropped. -/
theorem claim3_counterexample :
    rootChildCount (insertManyB initTrie keys65) = some 65 ∧
    (insertManyB initTrie keys65).bind (fun t => lookupB t [64]) = some [0] ∧
    MAX_CHILDREN < 65 :=
  ⟨by decide, by decide, by decide⟩

/-- C3 (amended): the 64-entry cap is not enforced — a child table can grow
past `MAX_CHILDREN` (see the counterexample) — but the per-byte uniqueness
half of the claim holds: after any sequence of inserts from the fresh store,
no node's child table has two entries for the same byte. -/
theorem claim3_children_distinct (pairs : List (List Nat × Nat)) (t : Trie)
    (hins : insertManyB initTrie pairs = some t) :
    ∀ i n, t.read i = some n → (n.children.map Prod.fst).Nodup :=
  fun i n h => (insertManyB_wf pairs initTrie t wf_initTrie hins).bytes_nodup i n h

/-- Witness for C3 (amended) after inserting the single key `[1]`. -/
theorem claim3_witness :
    (([(1, 1)] : List (Nat × Nat)).map Prod.fst).Nodup :=
  claim3_children_distinct [([1], 5)]
    [⟨0, false, [], [(1, 1)]⟩, ⟨1, true, [5], []⟩] rfl 0 ⟨0, false, [], [(1, 1)]⟩ rfl

/-- C8: `insert` is idempotent in its value — on a well-formed store,
inserting the same (key, value) pair twice succeeds and the second insert
changes nothing: the store, and hence the `lookup` result, is exactly that
of a single insert. -/
theorem claim8_insert_idempotent (t : Trie) (w : List Nat) (v : Nat) (hwf : WF t) :
    ∃ t1 t2, insertS t w v = some t1 ∧ insertS t1 w v = some t2 ∧
      lookupS t2 w = lookupS t1 w ∧ t2 = t1 := by
  obtain ⟨t1, fin, hins1, hwf1, _, _, hfol1, hvals1, hterm1, _, _, _⟩ :=
    insert_spec t (utf8Encode w) v hwf
  have hfinlt : fin < t1.length := followFrom_lt t1 hwf1 _ 0 fin hwf1.pos hfol1
  obtain ⟨n1, hn1⟩ := read_some_of_lt t1 fin hfinlt
  have htm1 : n1.is_terminal = true := by
    rw [termB_eq t1 _ fin n1 hfol1 hn1] at hterm1
    exact hterm1
  have hupd : updateVals n1.values v = n1.values := by
    have hv : n1.values = updateVals (valsB t (utf8Encode w)) v := by
      rw [← hvals1, valsB_eq t1 _ fin n1 hfol1 hn1]
    rw [hv, updateVals_updateVals]
  obtain ⟨t2, fin2, hins2, _, _, _, _, _, _, _, _, hnoop⟩ :=
    insert_spec t1 (utf8Encode w) v hwf1
  have ht21 : t2 = t1 := hnoop fin n1 hfol1 hn1 htm1 hupd
  exact ⟨t1, t2, hins1, hins2, by rw [ht21], ht21⟩

/-- Witness for C8 at the initial store, key "a" (byte 97) and value 3. -/
theorem claim8_witness :
    ∃ t1 t2, insertS initTrie [97] 3 = some t1 ∧ insertS t1 [97] 3 = some t2 ∧
      lookupS t2 [97] = lookupS t1 [97] ∧ t2 = t1 :=
  claim8_insert_idempotent initTrie [97] 3 wf_initTrie

/-- C10: the empty key is a valid key — when the root has room for the value
(or already holds it), `insert("", v)` succeeds without allocating any node,
marks the root (identifier 0) terminal with `v` among its values, and
`lookup("")` then returns a sequence containing `v`. -/
theorem claim10_empty_key (t : Trie) (v : Nat) (hwf : WF t)
    (hroom : ∀ n0, t.read 0 = some n0 → v ∈ n0.values ∨ n0.values.length < MAX_VALUES) :
    ∃ t2 n res, insertS t [] v = some t2 ∧ t2.length = t.length ∧
      t2.read 0 = some n ∧ n.is_terminal = true ∧ v ∈ n.values ∧
      lookupS t2 [] = some res ∧ v ∈ res := by
  obtain ⟨t2, fin, hins, hwf2, _, hemp, hfol, hvals, hterm, _, _, _⟩ :=
    insert_spec t [] v hwf
  have hfin0 : (0 : Nat) = fin := Option.some.inj hfol
  obtain ⟨n, hn⟩ := read_some_of_lt t2 0 hwf2.pos
  have hmemv : v ∈ valsB t2 [] := by
    rw [hvals]
    apply mem_updateVals
    obtain ⟨n0, hn0⟩ := read_some_of_lt t 0 hwf.pos
    rw [valsB_eq t [] 0 n0 rfl hn0]
    exact hroom n0 hn0
  refine ⟨t2, n, valsB t2 [], hins, hemp rfl, hn, ?_, ?_, ?_, hmemv⟩
  · rw [termB_eq t2 [] 0 n rfl hn] at hterm
    exact hterm
  · have hv : valsB t2 [] = n.values := valsB_eq t2 [] 0 n rfl hn
    rw [← hv]
    exact hmemv
  · exact lookupB_term t2 hwf2 [] hterm

/-- Witness for C10 at the initial store with value 5. -/
theorem claim10_witness :
    ∃ t2 n res, insertS initTrie [] 5 = some t2 ∧ t2.length = initTrie.length ∧
      t2.read 0 = some n ∧ n.is_terminal = true ∧ 5 ∈ n.values ∧
      lookupS t2 [] = some res ∧ 5 ∈ res :=
  claim10_empty_key initTrie 5 wf_initTrie
    (fun n0 h0 => Or.inr (by rw [Option.some.inj h0.symm]; decide))

/-- C4: round-trip — for distinct values whose combined count with the key's
existing values stays within the 8-value cap, `insert(k, v1); insert(k, v2);
lookup(k)` returns a duplicate-free sequence containing both `v1` and `v2`,
and exactly `[v1, v2]` (insertion order) when the key held no values
before. -/
theorem claim4_round_trip (t : Trie) (kb : List Nat) (v1 v2 : Nat) (hwf : WF t)
    (hne : v1 ≠ v2)
    (hcap : (valsB t kb ++ [v1, v2]).toFinset.card ≤ MAX_VALUES) :
    ∃ t1 t2 res, insertB t kb v1 = some t1 ∧ insertB t1 kb v2 = some t2 ∧
      lookupB t2 kb = some res ∧ v1 ∈ res ∧ v2 ∈ res ∧ res.Nodup ∧
      (valsB t kb = [] → res = [v1, v2]) := by
  obtain ⟨t1, fin1, hins1, hwf1, _, _, _, hvals1, _, _, _, _⟩ :=
    insert_spec t kb v1 hwf
  obtain ⟨t2, fin2, hins2, hwf2, _, _, _, hvals2, hterm2, _, _, _⟩ :=
    insert_spec t1 kb v2 hwf1
  have hres : valsB t2 kb = updateVals (updateVals (valsB t kb) v1) v2 := by
    rw [hvals2, hvals1]
  have hV0nd : (valsB t kb).Nodup := valsB_nodup t hwf kb
  have hcard1 : v1 ∉ valsB t kb → (valsB t kb).length < MAX_VALUES := by
    intro hnot
    have hsub : insert v1 (valsB t kb).toFinset ⊆ (valsB t kb ++ [v1, v2]).toFinset := by
      intro x hx
      simp only [Finset.mem_insert, List.mem_toFinset] at hx ⊢
      rcases hx with h | h
      · subst h; simp
      · simp [h]
    have h1 := le_trans (Finset.card_le_card hsub) hcap
    rw [Finset.card_insert_of_not_mem (by simpa using hnot),
      List.toFinset_card_of_nodup hV0nd] at h1
    omega
  have hcard2 : v2 ∉ updateVals (valsB t kb) v1 →
      (updateVals (valsB t kb) v1).length < MAX_VALUES := by
    intro hnotU
    have hnot2 : v2 ∉ valsB t kb := fun h => hnotU (updateVals_mem_mono _ v1 v2 h)
    by_cases h1 : v1 ∈ valsB t kb
    · have hU : updateVals (valsB t kb) v1 = valsB t kb := by
        unfold updateVals
        rw [if_pos h1]
      rw [hU]
      have hsub : insert v2 (valsB t kb).toFinset ⊆ (valsB t kb ++ [v1, v2]).toFinset := by
        intro x hx
        simp only [Finset.mem_insert, List.mem_toFinset] at hx ⊢
        rcases hx with h | h
        · subst h; simp
        · simp [h]
      have hc := le_trans (Finset.card_le_card hsub) hcap
      rw [Finset.card_insert_of_not_mem (by simpa using hnot2),
        List.toFinset_card_of_nodup hV0nd] at hc
      omega
    · have hsub : insert v1 (insert v2 (valsB t kb).toFinset) ⊆
          (valsB t kb ++ [v1, v2]).toFinset := by
        intro x hx
        simp only [Finset.mem_insert, List.mem_toFinset] at hx ⊢
        rcases hx with h | h | h
        · subst h; simp
        · subst h; simp
        · simp [h]
      have hc := le_trans (Finset.card_le_card hsub) hcap
      rw [Finset.card_insert_of_not_mem (by
          simp only [Finset.mem_insert, List.mem_toFinset]
          push_neg
          exact ⟨hne, h1⟩),
        Finset.card_insert_of_not_mem (by simpa using hnot2),
        List.toFinset_card_of_nodup hV0nd] at hc
      have hstep := updateVals_length_le_succ (valsB t kb) v1
      omega
  have hv1U1 : v1 ∈ updateVals (valsB t kb) v1 := by
    apply mem_updateVals
    by_cases h : v1 ∈ valsB t kb
    · exact Or.inl h
    · exact Or.inr (hcard1 h)
  have hv1 : v1 ∈ valsB t2 kb := by
    rw [hres]
    exact updateVals_mem_mono _ v2 v1 hv1U1
  have hv2 : v2 ∈ valsB t2 kb := by
    rw [hres]
    apply mem_updateVals
    by_cases h : v2 ∈ updateVals (valsB t kb) v1
    · exact Or.inl h
    · exact Or.inr (hcard2 h)
  refine ⟨t1, t2, valsB t2 kb, hins1, hins2, lookupB_term t2 hwf2 kb hterm2,
    hv1, hv2, valsB_nodup t2 hwf2 kb, ?_⟩
  intro h0
  rw [hres, h0]
  have e1 : updateVals [] v1 = [v1] := by
    unfold updateVals
    rw [if_neg (by simp), if_pos (by simp [MAX_VALUES])]
    rfl
  rw [e1]
  unfold updateVals
  rw [if_neg (by simp [Ne.symm hne]), if_pos (by simp [MAX_VALUES])]
  rfl

/-- Witness for C4 at the initial store, key byte 97 and values 1 and 2. -/
theorem claim4_witness :
    ∃ t1 t2 res, insertB initTrie [97] 1 = some t1 ∧ insertB t1 [97] 2 = some t2 ∧
      lookupB t2 [97] = some res ∧ 1 ∈ res ∧ 2 ∈ res ∧ res.Nodup ∧
      (valsB initTrie [97] = [] → res = [1, 2]) :=
  claim4_round_trip initTrie [97] 1 2 wf_initTrie (by decide) (by decide)

/-- Folding a list of inserts that all target the same key: the key's value
list becomes the `updateVals`-fold of the inserted values, and the key ends
terminal as soon as one value was inserted. -/
theorem insertMany_same_key (kb : List Nat) : ∀ (vs : List Nat) (t : Trie), WF t →
    ∃ t2, insertManyB t (vs.map (fun v => (kb, v))) = some t2 ∧ WF t2 ∧
      valsB t2 kb = vs.foldl updateVals (valsB t kb) ∧
      (vs = [] → t2 = t) ∧ (vs ≠ [] → termB t2 kb = true)
  | [], t, hwf => ⟨t, rfl, hwf, rfl, fun _ => rfl, fun h => absurd rfl h⟩
  | v :: rest, t, hwf => by
    obtain ⟨t1, fin, hins, hwf1, _, _, _, hvals1, hterm1, _, _, _⟩ :=
      insert_spec t kb v hwf
    obtain ⟨t2, hins2, hwf2, hvals2, hemp2, hterm2⟩ := insertMany_same_key kb rest t1 hwf1
    refine ⟨t2, ?_, hwf2, ?_, ?_, ?_⟩
    · simp only [List.map_cons, insertManyB, hins]
      exact hins2
    · rw [hvals2, hvals1]
      rfl
    · intro hcon
      exact absurd hcon (by simp)
    · intro _
      rcases Decidable.em (rest = []) with h | h
      · rw [hemp2 h]
        exact hterm1
      · exact hterm2 h

/-- C5: capacity ceiling — inserting 9 distinct values under one key with no
prior values leaves `lookup` reporting exactly the first 8 in insertion
order, the 9th value is absent, and the key stays terminal with its stored
values valid. -/
theorem claim5_capacity_ceiling (t : Trie) (kb : List Nat) (vs : List Nat) (hwf : WF t)
    (hempty : valsB t kb = []) (hlen : vs.length = 9) (hnd : vs.Nodup) :
    ∃ t2 res, insertManyB t (vs.map (fun v => (kb, v))) = some t2 ∧
      lookupB t2 kb = some res ∧ res = vs.take MAX_VALUES ∧
      (∀ x ∈ vs.drop MAX_VALUES, x ∉ res) ∧ termB t2 kb = true := by
  obtain ⟨t2, hins, hwf2, hvals, _, hterm⟩ := insertMany_same_key kb vs t hwf
  have hterm2 : termB t2 kb = true := by
    apply hterm
    intro h
    rw [h] at hlen
    exact absurd hlen (by decide)
  have hres : valsB t2 kb = vs.take MAX_VALUES := by
    rw [hvals, hempty, foldl_updateVals_take vs [] (by simpa using hnd)]
    simp
  refine ⟨t2, valsB t2 kb, hins, lookupB_term t2 hwf2 kb hterm2, hres, ?_, hterm2⟩
  intro x hx hcon
  rw [hres] at hcon
  have hnd2 : (vs.take MAX_VALUES ++ vs.drop MAX_VALUES).Nodup := by
    rw [List.take_append_drop]
    exact hnd
  rcases List.nodup_append.1 hnd2 with ⟨_, _, hdisj⟩
  exact hdisj hcon hx

/-- Witness for C5 at the initial store, key byte 97 and values 1..9. -/
theorem claim5_witness :
    ∃ t2 res,
      insertManyB initTrie (([1, 2, 3, 4, 5, 6, 7, 8, 9] : List Nat).map
        (fun v => ([97], v))) = some t2 ∧
      lookupB t2 [97] = some res ∧
      res = ([1, 2, 3, 4, 5, 6, 7, 8, 9] : List Nat).take MAX_VALUES ∧
      (∀ x ∈ ([1, 2, 3, 4, 5, 6, 7, 8, 9] : List Nat).drop MAX_VALUES, x ∉ res) ∧
      termB t2 [97] = true :=
  claim5_capacity_ceiling initTrie [97] [1, 2, 3, 4, 5, 6, 7, 8, 9] wf_initTrie
    (by decide) (by decide) (by decide)

/-- Counterexample to C1 as stated: after inserting the single-character key
of code point 233 ("é", UTF-8 bytes 195 169), `prefix_search` with the empty
prefix reports the key as the two code points 195 and 169 — `chr` applied to
each traversed byte — instead of the inserted key. -/
theorem claim1_counterexample :
    (insertS initTrie [233] 7).bind (fun t => prefixSearch t []) =
      some [([195, 169], [7])] ∧
    ([195, 169] : List Nat) ≠ [233] :=
  ⟨rfl, by decide⟩

/-- C1 (amended): prefix containment holds for ASCII keys only.  For every
(key, value) pair inserted from the fresh store, if all code points of the
key are below 128 then for every split of the key into a prefix and a rest,
`prefix_search` on the prefix succeeds and reports the key together with
exactly the values inserted under it.  For keys with multi-byte UTF-8
characters the reported key is wrong (see the counterexample). -/
theorem claim1_prefix_containment (ps : List (List Nat × Nat)) (k p r : List Nat)
    (v : Nat) (t : Trie)
    (hins : insertManyS initTrie ps = some t)
    (hmem : (k, v) ∈ ps)
    (hascii : ∀ c ∈ k, c < 128)
    (hsplit : k = p ++ r) :
    ∃ res, prefixSearch t p = some res ∧
      (k, ((ps.filter (fun q => q.1 = k)).map Prod.snd).foldl updateVals []) ∈ res := by
  rw [insertManyS_eq_insertManyB] at hins
  obtain ⟨t2, hins2, hwf, hvals, hterm⟩ :=
    insertManyB_spec (ps.map (fun q => (utf8Encode q.1, q.2))) initTrie wf_initTrie
  rw [hins2] at hins
  have ht : t2 = t := Option.some.inj hins
  rw [ht] at hwf hvals hterm
  have henck : utf8Encode k = k := utf8Encode_ascii k hascii
  have hpascii : ∀ c ∈ p, c < 128 := fun c hc =>
    hascii c (by rw [hsplit]; exact List.mem_append_left r hc)
  have hencp : utf8Encode p = p := utf8Encode_ascii p hpascii
  have hkterm : termB t (utf8Encode k) = true := by
    apply (hterm (utf8Encode k)).2
    right
    rw [List.map_map]
    exact List.mem_map.2 ⟨(k, v), hmem, rfl⟩
  have hfilter :
      (ps.map (fun q => (utf8Encode q.1, q.2))).filter (fun q => q.1 = utf8Encode k) =
        (ps.filter (fun q => q.1 = k)).map (fun q => (utf8Encode q.1, q.2)) := by
    rw [List.filter_map]
    congr 1
    apply List.filter_congr
    intro q hq
    show decide (utf8Encode q.1 = utf8Encode k) = decide (q.1 = k)
    rw [decide_eq_decide]
    constructor
    · intro h
      exact utf8Encode_eq_ascii q.1 k hascii (by rw [h, henck])
    · intro h
      rw [h]
  have hkvals : valsB t (utf8Encode k) =
      ((ps.filter (fun q => q.1 = k)).map Prod.snd).foldl updateVals [] := by
    rw [hvals (utf8Encode k), valsB_initTrie, hfilter, List.map_map]
    rfl
  have hfo : ∃ nid, followFrom t 0 (utf8Encode k) = some nid := by
    unfold termB at hkterm
    rcases h : followFrom t 0 (utf8Encode k) with _ | nid
    · simp only [h] at hkterm
      exact Bool.noConfusion hkterm
    · exact ⟨nid, rfl⟩
  obtain ⟨nid, hnid⟩ := hfo
  have hnidlt : nid < t.length := followFrom_lt t hwf _ 0 nid hwf.pos hnid
  obtain ⟨nd, hnd⟩ := read_some_of_lt t nid hnidlt
  have hndterm : nd.is_terminal = true := by
    rw [termB_eq t _ nid nd hnid hnd] at hkterm
    exact hkterm
  have hndvals : nd.values =
      ((ps.filter (fun q => q.1 = k)).map Prod.snd).foldl updateVals [] := by
    rw [← hkvals, valsB_eq t _ nid nd hnid hnd]
  have hnid2 : followFrom t 0 (p ++ r) = some nid := by
    rw [← hsplit, ← henck]
    exact hnid
  have hmid : ∃ mid, followFrom t 0 p = some mid ∧ followFrom t mid r = some nid := by
    rw [followFrom_append] at hnid2
    rcases hm : followFrom t 0 p with _ | mid
    · simp only [hm] at hnid2
      exact Option.noConfusion hnid2
    · simp only [hm] at hnid2
      exact ⟨mid, rfl, hnid2⟩
  obtain ⟨mid, hmidp, hmidr⟩ := hmid
  have hmidlt : mid < t.length := followFrom_lt t hwf p 0 mid hwf.pos hmidp
  obtain ⟨res, hres⟩ := dfs_ok t hwf (t.length + 1) mid p hmidlt (by omega)
  refine ⟨res, ?_, ?_⟩
  · unfold prefixSearch
    rw [descend_eq t hwf (utf8Encode p) 0 hwf.pos, hencp]
    simp only [hmidp]
    exact hres
  · have hm := dfs_mem t hwf r mid p (t.length + 1) res nid nd hmidr hnd hndterm hres
    rw [← hsplit, hndvals] at hm
    exact hm

/-- Witness for C1 (amended): inserting "cat" then "car" and searching the
prefix "ca" reports "cat" with its value. -/
theorem claim1_witness :
    ∃ res,
      prefixSearch
        [⟨0, false, [], [(99, 1)]⟩, ⟨99, false, [], [(97, 2)]⟩,
         ⟨97, false, [], [(116, 3), (114, 4)]⟩, ⟨116, true, [1], []⟩,
         ⟨114, true, [2], []⟩] [99, 97] = some res ∧
      (([99, 97, 116] : List Nat),
        ((([([99, 97, 116], 1), ([99, 97, 114], 2)] : List (List Nat × Nat)).filter
          (fun q => q.1 = [99, 97, 116])).map Prod.snd).foldl updateVals []) ∈ res :=
  claim1_prefix_containment [([99, 97, 116], 1), ([99, 97, 114], 2)]
    [99, 97, 116] [99, 97] [116] 1
    [⟨0, false, [], [(99, 1)]⟩, ⟨99, false, [], [(97, 2)]⟩,
     ⟨97, false, [], [(116, 3), (114, 4)]⟩, ⟨116, true, [1], []⟩,
     ⟨114, true, [2], []⟩]
    rfl (by decide) (by decide) rfl

end TrieIndex
